import Mathlib

/-!
# SUDGWAVEFORM: Gaussian derivative waveform (`src/cs/su/main/sudgwaveform.cc`)

A shallow embedding of `main_sudgwaveform` and of the arithmetic it runs on.

* C `int` is a 32-bit integer in two-complement form; `float` is IEEE 754 binary32 and
  `double` is IEEE 754 binary64, both rounded to nearest, ties to even, every
  operation rounded once to the type of its C expression.
* A floating-point datum is `FP`: not-a-number, a signed infinity, or a sign and an
  exact rational magnitude (so both zeros exist). The operations work on any rational
  magnitude; the numbers of a format are those that are `Representable`.
* The calls made on the trace manager `su2cs` are recorded in order as a `List Call`.
* The kernel `deriv_n_gauss` is a parameter of `main_sudgwaveform`; where a claim is
  about the waveform itself, the kernel described by the spec is put in its place.
* Memory is not bounded: `ealloc1double` and `memset` serve every request for `nt ≥ 0`
  doubles, the buffer `w` is a function from index to sample, and the capacity of
  `tr.data` is not bounded. A request for a negative `nt` fails, in the way the library
  decides (`Alloc`). `warn` output and `checkpars` are diagnostics and leave no trace.
-/

namespace sudgwaveform

/-! ## Floating-point formats -/

/-- An IEEE 754 binary interchange format: the precision in bits, and the least and
greatest exponent of a normal number. -/
structure Format where
  prec : Nat
  emin : Int
  emax : Int
deriving DecidableEq

/-- C `float`. -/
def binary32 : Format := ⟨24, -126, 127⟩

/-- C `double`. -/
def binary64 : Format := ⟨53, -1022, 1023⟩

/-- A floating-point datum. `fin neg mag` is the finite number `(-1)^neg * mag`. -/
inductive FP where
  | nan
  | inf (neg : Bool)
  | fin (neg : Bool) (mag : NNRat)
deriving DecidableEq

/-- Halve `n` until it is below `2`, at most `fuel` times, counting the halvings. -/
def ilog2Aux : Nat → Nat → Nat
  | 0, _ => 0
  | fuel + 1, n => if n < 2 then 0 else ilog2Aux fuel (n / 2) + 1

/-- The position of the leading binary digit of a positive natural number. -/
def ilog2 (n : Nat) : Nat := ilog2Aux n n

/-- The position of the leading binary digit of a positive rational: the integer `k`
with `2^k ≤ q < 2^(k+1)`. -/
def flog2 (q : ℚ) : Int :=
  if (2:ℚ) ^ ((ilog2 q.num.natAbs : Int) - (ilog2 q.den : Int)) ≤ q
  then (ilog2 q.num.natAbs : Int) - (ilog2 q.den : Int)
  else (ilog2 q.num.natAbs : Int) - (ilog2 q.den : Int) - 1

/-- The exponent of the unit in the last place of a number whose leading digit is at
position `e`: subnormal numbers share the spacing of the least normal binade. -/
def ulpExp (f : Format) (e : Int) : Int := max e f.emin - ((f.prec : Int) - 1)

/-- The spacing of the format around the positive rational `q`. -/
def ulp (f : Format) (q : ℚ) : ℚ := (2:ℚ) ^ ulpExp f (flog2 q)

/-- The nearest integer, ties to the even one. -/
def rne (x : ℚ) : Int :=
  if x - ⌊x⌋ < 1 / 2 then ⌊x⌋
  else if 1 / 2 < x - ⌊x⌋ then ⌊x⌋ + 1
  else if ⌊x⌋ % 2 = 0 then ⌊x⌋ else ⌊x⌋ + 1

/-- The magnitude `q` rounded to the nearest multiple of the spacing around it (the
exponent range is not yet bounded above). -/
def roundMag (f : Format) (q : ℚ) : ℚ :=
  if q ≤ 0 then 0 else (rne (q / ulp f q) : ℚ) * ulp f q

/-- The exact magnitude `q` with sign `neg` delivered in format `f`: rounded to nearest,
and infinite when the rounded magnitude exceeds the largest finite number. -/
def FP.ofMag (f : Format) (neg : Bool) (q : ℚ) : FP :=
  if roundMag f q < (2:ℚ) ^ (f.emax + 1) then .fin neg (roundMag f q).toNNRat else .inf neg

/-- Conversion of a C `int` to format `f`. -/
def FP.ofInt (f : Format) (i : Int) : FP := FP.ofMag f (decide (i < 0)) (i.natAbs : ℚ)

/-- Unary minus. -/
def FP.neg : FP → FP
  | .nan => .nan
  | .inf s => .inf (!s)
  | .fin s q => .fin (!s) q

/-- C `a * b` evaluated in format `f`. -/
def FP.mul (f : Format) : FP → FP → FP
  | .nan, _ => .nan
  | _, .nan => .nan
  | .inf s, .inf t => .inf (xor s t)
  | .inf s, .fin t q => if q = 0 then .nan else .inf (xor s t)
  | .fin s q, .inf t => if q = 0 then .nan else .inf (xor s t)
  | .fin s p, .fin t q => FP.ofMag f (xor s t) ((p : ℚ) * (q : ℚ))

/-- C `a / b` evaluated in format `f`. -/
def FP.div (f : Format) : FP → FP → FP
  | .nan, _ => .nan
  | _, .nan => .nan
  | .inf _, .inf _ => .nan
  | .inf s, .fin t _ => .inf (xor s t)
  | .fin s _, .inf t => .fin (xor s t) 0
  | .fin s p, .fin t q =>
    if q = 0 then (if p = 0 then .nan else .inf (xor s t))
    else FP.ofMag f (xor s t) ((p : ℚ) / (q : ℚ))

/-- C `a + b` evaluated in format `f`. An exact zero sum of opposite signs is `+0`. -/
def FP.add (f : Format) : FP → FP → FP
  | .nan, _ => .nan
  | _, .nan => .nan
  | .inf s, .inf t => if s = t then .inf s else .nan
  | .inf s, .fin _ _ => .inf s
  | .fin _ _, .inf t => .inf t
  | .fin s p, .fin t q =>
    if s = t then FP.ofMag f s ((p : ℚ) + (q : ℚ))
    else if p = q then .fin false 0
    else if q < p then FP.ofMag f s ((p : ℚ) - (q : ℚ))
    else FP.ofMag f t ((q : ℚ) - (p : ℚ))

/-- C `a - b` evaluated in format `f`. -/
def FP.sub (f : Format) (a b : FP) : FP := FP.add f a (FP.neg b)

/-- Search for the integer square root, one binary digit per step from position `i - 1`
down to `0`, starting from the partial root `r`. -/
def isqrtAux (n : Nat) : Nat → Nat → Nat
  | 0, r => r
  | i + 1, r =>
    if (r + 2 ^ i) * (r + 2 ^ i) ≤ n then isqrtAux n i (r + 2 ^ i) else isqrtAux n i r

/-- The integer square root: the greatest `r` with `r * r ≤ n`. -/
def isqrt (n : Nat) : Nat := isqrtAux n (ilog2 n / 2 + 1) 0

/-- The square root of the positive rational `q` rounded to nearest, ties to even, in
format `f`: the two neighbours are `m * u` and `(m + 1) * u`, and `q` is compared with
the square of their midpoint. -/
def sqrtMag (f : Format) (q : ℚ) : ℚ :=
  if q ≤ 0 then 0 else
  let u : ℚ := (2:ℚ) ^ ulpExp f (flog2 q / 2)
  let m : Nat := isqrt ⌊q / (u * u)⌋.toNat
  let mid : ℚ := ((m : ℚ) + 1 / 2) * u
  if q < mid * mid then (m : ℚ) * u
  else if mid * mid < q then ((m : ℚ) + 1) * u
  else if m % 2 = 0 then (m : ℚ) * u else ((m : ℚ) + 1) * u

/-- C `sqrt(a)` in format `f`. -/
def FP.sqrt (f : Format) : FP → FP
  | .nan => .nan
  | .inf s => if s then .nan else .inf false
  | .fin s q => if q = 0 then .fin s 0 else if s then .nan else .fin false (sqrtMag f q).toNNRat

/-- The real value of a finite datum. -/
def FP.signed (neg : Bool) (q : NNRat) : ℚ := if neg then -(q : ℚ) else (q : ℚ)

/-- C `a < b`: false as soon as one side is not a number; the two zeros are equal. -/
def FP.lt : FP → FP → Bool
  | .nan, _ => false
  | _, .nan => false
  | .inf s, .inf t => s && !t
  | .inf s, .fin _ _ => s
  | .fin _ _, .inf t => !t
  | .fin s p, .fin t q => decide (FP.signed s p < FP.signed t q)

/-- C `a <= b`. -/
def FP.le : FP → FP → Bool
  | .nan, _ => false
  | _, .nan => false
  | .inf s, .inf t => s || !t
  | .inf s, .fin _ _ => s
  | .fin _ _, .inf t => !t
  | .fin s p, .fin t q => decide (FP.signed s p ≤ FP.signed t q)

/-- The least C `int`. -/
def INT_MIN : Int := -2147483648

/-- The greatest C `int`. -/
def INT_MAX : Int := 2147483647

/-- C `int` arithmetic result brought back into the range of a 32-bit integer. -/
def wrap32 (x : Int) : Int := (x + 2147483648) % 4294967296 - 2147483648

/-- C `(int) a` for a `double`: the fraction is discarded. A value that does not fit
an `int` has no defined conversion in C; the x86-64 conversion instruction then
delivers `INT_MIN`, and so does this definition. -/
def FP.toInt : FP → Int
  | .fin s q =>
    if INT_MIN ≤ (if s then -⌊(q : ℚ)⌋ else ⌊(q : ℚ)⌋) ∧ (if s then -⌊(q : ℚ)⌋ else ⌊(q : ℚ)⌋) ≤ INT_MAX
    then (if s then -⌊(q : ℚ)⌋ else ⌊(q : ℚ)⌋) else INT_MIN
  | _ => INT_MIN

/-- C `(float) a` for a `double`. -/
def FP.toFloat : FP → FP
  | .nan => .nan
  | .inf s => .inf s
  | .fin s q => FP.ofMag binary32 s (q : ℚ)

/-- A decimal literal `num / den` of type `double`. -/
def FP.lit (num den : Nat) : FP := FP.ofMag binary64 false ((num : ℚ) / (den : ℚ))

/-- Modelled from the spec: the macro `NINT` of the header `cwp.h`, which is not among
the sources. The spec gives the sample interval field as
"round(sampleIntervalSeconds * 1,000,000) (microseconds, integer)": the nearest
integer, a tie going away from zero, delivered as a C `int` like `FP.toInt`. -/
def NINT : FP → Int
  | .fin s q =>
    if INT_MIN ≤ (if s then -⌊(q : ℚ) + 1 / 2⌋ else ⌊(q : ℚ) + 1 / 2⌋) ∧
        (if s then -⌊(q : ℚ) + 1 / 2⌋ else ⌊(q : ℚ) + 1 / 2⌋) ≤ INT_MAX
    then (if s then -⌊(q : ℚ) + 1 / 2⌋ else ⌊(q : ℚ) + 1 / 2⌋) else INT_MIN
  | _ => INT_MIN

/-! ## The program -/

/-- Modelled from the spec: the trace record `segy` of the header `segy.h`, which is not
among the sources. The spec lists the fields this program sets: the sample sequence in
single precision, the trace index, the sample count, the type tag, the sample interval
in microseconds and the trace count, each an integer. `data` holds the samples that the
copy loop wrote, in order. -/
structure segy where
  tracl : Int
  ns : Int
  trid : Int
  dt : Int
  ntr : Int
  data : List FP
deriving DecidableEq

/-- A call made on the trace manager `su2cs`. -/
inductive Call where
  | setSUDoc
  | putTrace (tr : segy)
  | setEOF
  | setError (msg : String)
deriving DecidableEq

/-- The command line as `getparint`, `getparfloat` and `getpardouble` see it: each
parameter is either absent or parsed to a value of its C type. -/
structure Args where
  n : Option Int
  fpeak : Option FP
  sign : Option Int
  nfpeak : Option Int
  shift : Option FP
  verbose : Option Int
  nt : Option Int

/-- The kernel `deriv_n_gauss (dt, nt, t0, fpeak, n, w, sign, verbose)`, which this
program calls and the CWP library defines: it receives the buffer `w` and leaves the
waveform in it. -/
abbrev Kernel := FP → Int → FP → FP → Int → (Nat → FP) → Int → Int → (Nat → FP)

/-- The local variables of `main_sudgwaveform` once the parameters are read. -/
structure Setup where
  n : Int
  fpeak : FP
  sign : Int
  nfpeak : Int
  shift : FP
  verbose : Int
  fmax : FP
  dt : FP
  t0 : FP
  nt : Int

/-- The value `2 * t0 / dt + 1` that is converted to the default `nt`. -/
def ntValue (t0 dt : FP) : FP :=
  FP.add binary64 (FP.div binary64 (FP.mul binary64 (FP.ofInt binary64 2) t0) dt)
    (FP.ofInt binary64 1)

/-- The section "Get parameters and do setup", lines 120 to 129 of `main_sudgwaveform`. -/
def setup (a : Args) : Setup :=
  let n : Int := a.n.getD 2
  let fpeak : FP := a.fpeak.getD (FP.ofInt binary32 35)
  let sign : Int := a.sign.getD 1
  let nfpeak : Int := a.nfpeak.getD (wrap32 (n * n))
  let shift : FP := a.shift.getD (FP.ofInt binary64 0)
  let verbose : Int := a.verbose.getD 0
  let fmax : FP := FP.mul binary32 (FP.ofInt binary32 nfpeak) fpeak
  let dt : FP := FP.div binary64 (FP.lit 1 2) fmax
  let t0 : FP := FP.add binary64 shift (FP.div binary64 (FP.sqrt binary64 (FP.ofInt binary64 n)) fpeak)
  let nt : Int := a.nt.getD (FP.toInt (ntValue t0 dt))
  { n := n, fpeak := fpeak, sign := sign, nfpeak := nfpeak, shift := shift,
    verbose := verbose, fmax := fmax, dt := dt, t0 := t0, nt := nt }

/-- The trace that is written out: lines 148 to 153. -/
def makeTrace (p : Setup) (w : Nat → FP) : segy :=
  { data := (List.range p.nt.toNat).map (fun i => FP.toFloat (w i))
    tracl := 1
    ns := p.nt
    trid := 1
    dt := NINT (FP.mul binary64 p.dt (FP.lit 1000000 1))
    ntr := 1 }

/-- What the library does with an allocation it cannot serve: it throws a `csException`,
which the `catch` block of the caller reports, or it ends the process. -/
inductive Failure where
  | throws (msg : String)
  | exits
deriving DecidableEq

/-- The library routine `ealloc1double` together with the `memset` behind it (lines 136
and 137), as far as `main_sudgwaveform` depends on them. A request for `nt ≥ 0` doubles
is served, the amount of memory not being bounded here. A request for a negative `nt`
cannot be served: as a size it exceeds the address space. What the library does then is
not in the sources; it is this parameter, and it may depend on `nt`. -/
abbrev Alloc := Int → Failure

/-- How the `try` block ended: it ran to its end, it threw a `csException` with a
message, or the process ended inside it. -/
inductive Ending where
  | completed
  | thrown (msg : String)
  | exited
deriving DecidableEq

/-- The end of the `try` block on a failed allocation. -/
def Failure.ending : Failure → Ending
  | .throws msg => .thrown msg
  | .exits => .exited

/-- The calls that follow the `try` block: the `catch` block reports a `csException`
with `setError`; nothing follows a completed block or an ended process. -/
def Ending.calls : Ending → List Call
  | .completed => []
  | .thrown msg => [Call.setError msg]
  | .exited => []

/-- The body of the `try` block, lines 120 to 166: the calls it made on `su2cs`, and how
it ended. The precision guard (line 132) comes first, then the allocation of `w` (lines
136 and 137), then the check of the order `n` (lines 141 and 158). -/
def tryBlock (E : Alloc) (K : Kernel) (a : Args) : List Call × Ending :=
  if FP.lt (setup a).dt (FP.lit 1 1000000) then
    ([], Ending.thrown "single-precision exceeded: reduce nfpeak or fpeak")
  else if (setup a).nt < 0 then
    ([], (E (setup a).nt).ending)
  else if 1 ≤ (setup a).n then
    ([Call.putTrace (makeTrace (setup a)
        (K (setup a).dt (setup a).nt (setup a).t0 (setup a).fpeak (setup a).n
          (fun _ => FP.fin false 0) (setup a).sign (setup a).verbose)),
      Call.setEOF], Ending.completed)
  else ([], Ending.thrown "specified n not >=1 !!")

/-- The calls `main_sudgwaveform` makes on `su2cs`, in order. `isDocRequestOnly` is the
answer of `su2cs->isDocRequestOnly()`. -/
def main_sudgwaveform (E : Alloc) (K : Kernel) (isDocRequestOnly : Bool) (a : Args) :
    List Call :=
  Call.setSUDoc ::
    (if isDocRequestOnly then []
     else (tryBlock E K a).1 ++ (tryBlock E K a).2.calls)

/-- Modelled from the spec: the failure of an allocation, which the library handles and
the sources do not show. The spec (section 7) has it that "allocation failure is treated
as fatal/unrecoverable and out of scope for explicit handling": the process ends. -/
def fatalAlloc : Alloc := fun _ => Failure.exits

/-- Whether `putTrace` is among the calls. -/
def putsTrace : List Call → Bool
  | [] => false
  | Call.putTrace _ :: _ => true
  | _ :: cs => putsTrace cs

/-- Whether `setError` is among the calls. -/
def setsError : List Call → Bool
  | [] => false
  | Call.setError _ :: _ => true
  | _ :: cs => setsError cs

/-- Whether `setEOF` is among the calls. -/
def setsEOF : List Call → Bool
  | [] => false
  | Call.setEOF :: _ => true
  | _ :: cs => setsEOF cs

/-- The command line with no parameter at all. -/
def noArgs : Args :=
  { n := none, fpeak := none, sign := none, nfpeak := none, shift := none,
    verbose := none, nt := none }

/-- A kernel that leaves the buffer as it found it. -/
def idleKernel : Kernel := fun _ _ _ _ _ w _ _ => w

/-- A kernel that writes the `double` nearest to `0.1` into every sample. -/
def tenthKernel : Kernel := fun _ _ _ _ _ _ _ _ _ => FP.lit 1 10

/-- The finite numbers of format `f`: `m * 2^e` with `m` below `2^prec` and `e` in the
exponent range of the format. -/
def Representable (f : Format) (q : ℚ) : Prop :=
  ∃ (m : Nat) (e : Int), m < 2 ^ f.prec ∧ f.emin - ((f.prec : Int) - 1) ≤ e ∧
    e ≤ f.emax - ((f.prec : Int) - 1) ∧ q = (m : ℚ) * (2:ℚ) ^ e

/-- The data of format `f`: not-a-number, the infinities and the finite numbers of `f`. -/
def FP.IsFloat (f : Format) : FP → Prop
  | .fin _ q => Representable f (q : ℚ)
  | _ => True

/-- Whether the datum is a finite number within `tol` of the rational `c`. -/
def FP.near (x : FP) (c tol : ℚ) : Bool :=
  match x with
  | .fin s q => decide (|FP.signed s q - c| ≤ tol)
  | _ => false

/-- A datum that is not negative: not-a-number, `+inf`, a positive number or a zero. -/
def FP.NonNeg : FP → Prop
  | .nan => True
  | .inf s => s = false
  | .fin s q => s = false ∨ q = 0

/-- A datum whose sign bit is clear, or not-a-number. -/
def FP.SignClear : FP → Prop
  | .nan => True
  | .inf s => s = false
  | .fin s _ => s = false

/-- Modelled from the spec: the Hermite polynomials of the kernel `deriv_n_gauss`, whose
source (the CWP library) is not among the sources. The spec gives the recurrence
`He_0 = 1`, `He_1 = x`, `He_k(x) = x * He_{k-1}(x) - (k-1) * He_{k-2}(x)`;
`hermitePair x k` is the pair `(He_k x, He_{k+1} x)`, computed in `double`. -/
def hermitePair (x : FP) : Nat → FP × FP
  | 0 => (FP.ofInt binary64 1, x)
  | k + 1 =>
    ((hermitePair x k).2,
     FP.sub binary64 (FP.mul binary64 x (hermitePair x k).2)
       (FP.mul binary64 (FP.ofInt binary64 ((k : Int) + 1)) (hermitePair x k).1))

/-- Modelled from the spec: the Hermite polynomial `He_n(x)` of the kernel
`deriv_n_gauss`, whose source is not among the sources. -/
def hermite (n : Nat) (x : FP) : FP := (hermitePair x n).1

/-- Modelled from the spec: the kernel `deriv_n_gauss`, whose source (the CWP library) is
not among the sources. The spec gives sample `i` as
`sign * (-1)^n * He_n(x) * exp(-x^2 / 2)` at `x = (t_i - t0) / sigma`, `t_i = i * dt`, for
`i` in `[0, nt)`. It leaves open the standard deviation `sigma` implied by the peak
frequency and the library exponential `fexp`, which are parameters here. -/
def deriv_n_gauss (sigma : FP → Int → FP) (fexp : FP → FP) : Kernel :=
  fun dt nt t0 fpeak n w sign _ i =>
    if (i : Int) < nt then
      FP.mul binary64
        (FP.mul binary64
          (FP.mul binary64 (FP.ofInt binary64 sign) (FP.ofInt binary64 ((-1) ^ n.toNat)))
          (hermite n.toNat
            (FP.div binary64
              (FP.sub binary64 (FP.mul binary64 (FP.ofInt binary64 (i : Int)) dt) t0)
              (sigma fpeak n))))
        (fexp (FP.div binary64
          (FP.neg (FP.mul binary64
            (FP.div binary64
              (FP.sub binary64 (FP.mul binary64 (FP.ofInt binary64 (i : Int)) dt) t0)
              (sigma fpeak n))
            (FP.div binary64
              (FP.sub binary64 (FP.mul binary64 (FP.ofInt binary64 (i : Int)) dt) t0)
              (sigma fpeak n))))
          (FP.ofInt binary64 2)))
    else w i

/-- The request `n=2 fpeak=35`, the first end-to-end scenario of the spec. -/
def rickerArgs : Args := { noArgs with n := some 2, fpeak := some (FP.ofInt binary32 35) }

/-- The request `nt=-1`. -/
def negCountArgs : Args := { noArgs with nt := some (-1) }

/-- The request `nt=128`. -/
def longArgs : Args := { noArgs with nt := some 128 }

/-- The request `nfpeak=0`. -/
def zeroFactorArgs : Args := { noArgs with nfpeak := some 0 }

/-- The request `shift=-0.01`. -/
def earlyArgs : Args := { noArgs with shift := some (FP.neg (FP.lit 1 100)) }

/-- The request `n=1 fpeak=0.00001`. -/
def slowArgs : Args :=
  { noArgs with n := some 1, fpeak := some (FP.toFloat (FP.lit 1 100000)) }

/-! ## Facts about the arithmetic -/

lemma ilog2Aux_spec : ∀ (fuel n : Nat), n ≤ fuel → 0 < n →
    2 ^ ilog2Aux fuel n ≤ n ∧ n < 2 ^ (ilog2Aux fuel n + 1)
  | 0, n, h, hn => by omega
  | fuel + 1, n, h, hn => by
    unfold ilog2Aux
    by_cases h2 : n < 2
    · simp only [h2, if_true]
      constructor <;> simp <;> omega
    · simp only [h2, if_false]
      have ih := ilog2Aux_spec fuel (n / 2) (by omega) (by omega)
      obtain ⟨ih1, ih2⟩ := ih
      rw [pow_succ] at ih2 ⊢
      constructor
      · omega
      · rw [pow_succ]; omega

lemma ilog2_spec (n : Nat) (hn : 0 < n) : 2 ^ ilog2 n ≤ n ∧ n < 2 ^ (ilog2 n + 1) :=
  ilog2Aux_spec n n le_rfl hn

lemma two_zpow_pos (e : Int) : (0:ℚ) < (2:ℚ) ^ e := zpow_pos (by norm_num) e

lemma flog2_spec (q : ℚ) (hq : 0 < q) :
    (2:ℚ) ^ flog2 q ≤ q ∧ q < (2:ℚ) ^ (flog2 q + 1) := by
  have hnum : 0 < q.num := Rat.num_pos.mpr hq
  have ha : 0 < q.num.natAbs := Int.natAbs_pos.mpr hnum.ne'
  have hb : 0 < q.den := q.den_pos
  obtain ⟨a1, a2⟩ := ilog2_spec _ ha
  obtain ⟨b1, b2⟩ := ilog2_spec _ hb
  have hqa : q = (q.num.natAbs : ℚ) / (q.den : ℚ) := by
    have h2 : (q.num.natAbs : ℚ) = (q.num : ℚ) := by
      rw [← Int.cast_natCast, Int.natAbs_of_nonneg hnum.le]
    rw [h2]; exact (Rat.num_div_den q).symm
  have hbq : (0:ℚ) < (q.den : ℚ) := by exact_mod_cast hb
  have a1q : (2:ℚ) ^ (ilog2 q.num.natAbs) ≤ (q.num.natAbs : ℚ) := by exact_mod_cast a1
  have a2q : (q.num.natAbs : ℚ) < (2:ℚ) ^ (ilog2 q.num.natAbs + 1) := by exact_mod_cast a2
  have b1q : (2:ℚ) ^ (ilog2 q.den) ≤ (q.den : ℚ) := by exact_mod_cast b1
  have b2q : (q.den : ℚ) < (2:ℚ) ^ (ilog2 q.den + 1) := by exact_mod_cast b2
  have e1 : (2:ℚ) ^ ((ilog2 q.num.natAbs : Int) - (ilog2 q.den : Int) + 1)
      = (2:ℚ) ^ (ilog2 q.num.natAbs + 1) / (2:ℚ) ^ (ilog2 q.den) := by
    rw [show ((ilog2 q.num.natAbs : Int) - (ilog2 q.den : Int) + 1)
        = ((ilog2 q.num.natAbs + 1 : Nat) : Int) - ((ilog2 q.den : Nat) : Int) by push_cast; ring]
    rw [zpow_sub₀ (by norm_num : (2:ℚ) ≠ 0), zpow_natCast, zpow_natCast]
  have e2 : (2:ℚ) ^ ((ilog2 q.num.natAbs : Int) - (ilog2 q.den : Int) - 1)
      = (2:ℚ) ^ (ilog2 q.num.natAbs) / (2:ℚ) ^ (ilog2 q.den + 1) := by
    rw [show ((ilog2 q.num.natAbs : Int) - (ilog2 q.den : Int) - 1)
        = ((ilog2 q.num.natAbs : Nat) : Int) - ((ilog2 q.den + 1 : Nat) : Int) by push_cast; ring]
    rw [zpow_sub₀ (by norm_num : (2:ℚ) ≠ 0), zpow_natCast, zpow_natCast]
  have up : q < (2:ℚ) ^ ((ilog2 q.num.natAbs : Int) - (ilog2 q.den : Int) + 1) := by
    rw [e1]
    have hp : (0:ℚ) < (2:ℚ) ^ (ilog2 q.den) := by positivity
    refine lt_of_eq_of_lt hqa ?_
    rw [div_lt_div_iff₀ hbq hp]
    calc (q.num.natAbs : ℚ) * (2:ℚ) ^ (ilog2 q.den)
        ≤ (q.num.natAbs : ℚ) * (q.den : ℚ) := by
          apply mul_le_mul_of_nonneg_left b1q; positivity
      _ < (2:ℚ) ^ (ilog2 q.num.natAbs + 1) * (q.den : ℚ) := by
          apply mul_lt_mul_of_pos_right a2q hbq
  have lo : (2:ℚ) ^ ((ilog2 q.num.natAbs : Int) - (ilog2 q.den : Int) - 1) ≤ q := by
    rw [e2]
    have hp : (0:ℚ) < (2:ℚ) ^ (ilog2 q.den + 1) := by positivity
    refine le_of_le_of_eq ?_ hqa.symm
    rw [div_le_div_iff₀ hp hbq]
    calc (2:ℚ) ^ (ilog2 q.num.natAbs) * (q.den : ℚ)
        ≤ (q.num.natAbs : ℚ) * (q.den : ℚ) := by
          apply mul_le_mul_of_nonneg_right a1q hbq.le
      _ ≤ (q.num.natAbs : ℚ) * (2:ℚ) ^ (ilog2 q.den + 1) := by
          apply mul_le_mul_of_nonneg_left b2q.le; positivity
  unfold flog2
  by_cases h : (2:ℚ) ^ ((ilog2 q.num.natAbs : Int) - (ilog2 q.den : Int)) ≤ q
  · rw [if_pos h]; exact ⟨h, up⟩
  · rw [if_neg h]
    refine ⟨lo, ?_⟩
    rw [sub_add_cancel]; exact lt_of_not_le h

lemma flog2_lt_of_lt_zpow (q : ℚ) (hq : 0 < q) (k : Int) (h : q < (2:ℚ) ^ k) : flog2 q < k := by
  have h1 := (flog2_spec q hq).1
  exact (zpow_lt_zpow_iff_right₀ (by norm_num : (1:ℚ) < 2)).mp (lt_of_le_of_lt h1 h)

lemma le_flog2_of_zpow_le (q : ℚ) (hq : 0 < q) (k : Int) (h : (2:ℚ) ^ k ≤ q) : k ≤ flog2 q := by
  have h1 := (flog2_spec q hq).2
  have := (zpow_lt_zpow_iff_right₀ (by norm_num : (1:ℚ) < 2)).mp (lt_of_le_of_lt h h1)
  omega

lemma flog2_mono (p q : ℚ) (hp : 0 < p) (hpq : p ≤ q) : flog2 p ≤ flog2 q :=
  le_flog2_of_zpow_le q (lt_of_lt_of_le hp hpq) _ (le_trans (flog2_spec p hp).1 hpq)

lemma floor_le_rne (x : ℚ) : ⌊x⌋ ≤ rne x := by
  unfold rne; split_ifs <;> omega

lemma rne_le_floor_add_one (x : ℚ) : rne x ≤ ⌊x⌋ + 1 := by
  unfold rne; split_ifs <;> omega

lemma rne_intCast (n : Int) : rne (n : ℚ) = n := by
  unfold rne; simp

lemma le_rne_of_le (x : ℚ) (n : Int) (h : (n : ℚ) ≤ x) : n ≤ rne x :=
  le_trans (Int.le_floor.mpr h) (floor_le_rne x)

lemma rne_le_of_le (x : ℚ) (n : Int) (h : x ≤ (n : ℚ)) : rne x ≤ n := by
  have hf : ⌊x⌋ ≤ n := by
    have : (⌊x⌋ : ℚ) ≤ n := le_trans (Int.floor_le x) h
    exact_mod_cast this
  rcases lt_or_eq_of_le hf with hlt | heq
  · have := rne_le_floor_add_one x; omega
  · have hx : x = (n : ℚ) := by
      apply le_antisymm h
      rw [← heq]; exact Int.floor_le x
    rw [hx, rne_intCast]

lemma rne_mono (x y : ℚ) (h : x ≤ y) : rne x ≤ rne y := by
  have hf : ⌊x⌋ ≤ ⌊y⌋ := Int.floor_mono h
  rcases lt_or_eq_of_le hf with hlt | heq
  · have h1 := rne_le_floor_add_one x
    have h2 := floor_le_rne y
    omega
  · have hxy : x - ⌊x⌋ ≤ y - ⌊y⌋ := by rw [heq]; linarith
    unfold rne
    rw [heq]
    split_ifs <;> first | omega | linarith

lemma ulp_pos (f : Format) (q : ℚ) : 0 < ulp f q := two_zpow_pos _

lemma roundMag_of_pos (f : Format) (q : ℚ) (hq : 0 < q) :
    roundMag f q = (rne (q / ulp f q) : ℚ) * ulp f q := by
  unfold roundMag; rw [if_neg (not_le.mpr hq)]

lemma roundMag_of_nonpos (f : Format) (q : ℚ) (hq : q ≤ 0) : roundMag f q = 0 := by
  unfold roundMag; rw [if_pos hq]

lemma roundMag_nonneg (f : Format) (q : ℚ) : 0 ≤ roundMag f q := by
  rcases le_or_lt q 0 with h | h
  · rw [roundMag_of_nonpos f q h]
  · rw [roundMag_of_pos f q h]
    have h0 : (0:Int) ≤ rne (q / ulp f q) :=
      le_rne_of_le _ 0 (by simpa using (div_pos h (ulp_pos f q)).le)
    have h1 : (0:ℚ) ≤ (rne (q / ulp f q) : ℚ) := by exact_mod_cast h0
    exact mul_nonneg h1 (ulp_pos f q).le

lemma le_roundMag_of_grid (f : Format) (q : ℚ) (hq : 0 < q) (M : Int)
    (h : (M : ℚ) * ulp f q ≤ q) : (M : ℚ) * ulp f q ≤ roundMag f q := by
  rw [roundMag_of_pos f q hq]
  have h1 : (M : ℚ) ≤ q / ulp f q := (le_div_iff₀ (ulp_pos f q)).mpr h
  have h2 : M ≤ rne (q / ulp f q) := le_rne_of_le _ _ h1
  have h3 : (M : ℚ) ≤ (rne (q / ulp f q) : ℚ) := by exact_mod_cast h2
  exact mul_le_mul_of_nonneg_right h3 (ulp_pos f q).le

lemma roundMag_le_of_grid (f : Format) (q : ℚ) (hq : 0 < q) (M : Int)
    (h : q ≤ (M : ℚ) * ulp f q) : roundMag f q ≤ (M : ℚ) * ulp f q := by
  rw [roundMag_of_pos f q hq]
  have h1 : q / ulp f q ≤ (M : ℚ) := (div_le_iff₀ (ulp_pos f q)).mpr h
  have h2 : rne (q / ulp f q) ≤ M := rne_le_of_le _ _ h1
  have h3 : (rne (q / ulp f q) : ℚ) ≤ (M : ℚ) := by exact_mod_cast h2
  exact mul_le_mul_of_nonneg_right h3 (ulp_pos f q).le

lemma two_zpow_split (a : Int) (n : Nat) :
    (2:ℚ) ^ (a + (n : Int)) = (((2:Int) ^ n : Int) : ℚ) * (2:ℚ) ^ a := by
  rw [zpow_add₀ (by norm_num : (2:ℚ) ≠ 0), zpow_natCast]
  push_cast; ring

lemma roundMag_le_pow (f : Format) (q : ℚ) (hq : 0 < q) :
    roundMag f q ≤ (2:ℚ) ^ (ulpExp f (flog2 q) + (f.prec : Int)) := by
  rw [two_zpow_split]
  apply roundMag_le_of_grid f q hq
  show q ≤ (((2:Int) ^ f.prec : Int) : ℚ) * (2:ℚ) ^ ulpExp f (flog2 q)
  rw [← two_zpow_split]
  have h1 := (flog2_spec q hq).2
  refine le_trans h1.le ?_
  apply zpow_le_zpow_right₀ (by norm_num)
  unfold ulpExp
  have := le_max_left (flog2 q) f.emin
  omega

lemma pow_le_roundMag (f : Format) (hp : 1 ≤ f.prec) (q : ℚ) (hq : 0 < q)
    (he : f.emin ≤ flog2 q) : (2:ℚ) ^ flog2 q ≤ roundMag f q := by
  have hE : flog2 q = ulpExp f (flog2 q) + ((f.prec - 1 : Nat) : Int) := by
    unfold ulpExp
    rw [max_eq_left he]
    have : ((f.prec - 1 : Nat) : Int) = (f.prec : Int) - 1 := by omega
    omega
  have key : (2:ℚ) ^ flog2 q = (((2:Int) ^ (f.prec - 1) : Int) : ℚ) * ulp f q := by
    conv_lhs => rw [hE]
    rw [two_zpow_split]; rfl
  rw [key]
  apply le_roundMag_of_grid f q hq
  rw [← key]
  exact (flog2_spec q hq).1

lemma ulpExp_mono (f : Format) (a b : Int) (h : a ≤ b) : ulpExp f a ≤ ulpExp f b := by
  unfold ulpExp
  have := max_le_max h (le_refl f.emin)
  omega

lemma roundMag_mono (f : Format) (hp : 1 ≤ f.prec) (p q : ℚ) (h : p ≤ q) :
    roundMag f p ≤ roundMag f q := by
  rcases le_or_lt p 0 with hp0 | hp0
  · rw [roundMag_of_nonpos f p hp0]; exact roundMag_nonneg f q
  have hq0 : 0 < q := lt_of_lt_of_le hp0 h
  have hlog := flog2_mono p q hp0 h
  have hE := ulpExp_mono f _ _ hlog
  rcases lt_or_eq_of_le hE with hlt | heq
  · -- different binades
    have h1 := roundMag_le_pow f p hp0
    have hq_emin : f.emin < flog2 q := by
      unfold ulpExp at hlt
      by_contra hcon
      push_neg at hcon
      rw [max_eq_right hcon] at hlt
      have := le_max_right (flog2 p) f.emin
      omega
    have h2 := pow_le_roundMag f hp q hq0 hq_emin.le
    refine le_trans h1 (le_trans ?_ h2)
    apply zpow_le_zpow_right₀ (by norm_num)
    unfold ulpExp at hlt ⊢
    rw [max_eq_left hq_emin.le] at hlt
    omega
  · rw [roundMag_of_pos f p hp0, roundMag_of_pos f q hq0]
    have hu : ulp f p = ulp f q := by unfold ulp; rw [heq]
    rw [hu]
    have h1 : p / ulp f q ≤ q / ulp f q := div_le_div_of_nonneg_right h (ulp_pos f q).le
    have h2 := rne_mono _ _ h1
    have h3 : (rne (p / ulp f q) : ℚ) ≤ (rne (q / ulp f q) : ℚ) := by exact_mod_cast h2
    exact mul_le_mul_of_nonneg_right h3 (ulp_pos f q).le

lemma roundMag_of_representable (f : Format) (q : ℚ) (h : Representable f q) :
    roundMag f q = q := by
  obtain ⟨m, e, hm, he1, he2, rfl⟩ := h
  rcases Nat.eq_zero_or_pos m with h0 | hpos
  · subst h0; simp [roundMag]
  have hq : (0:ℚ) < (m : ℚ) * (2:ℚ) ^ e := mul_pos (by exact_mod_cast hpos) (two_zpow_pos e)
  have hlt : (m : ℚ) * (2:ℚ) ^ e < (2:ℚ) ^ (e + (f.prec : Int)) := by
    rw [two_zpow_split]
    apply mul_lt_mul_of_pos_right _ (two_zpow_pos e)
    exact_mod_cast hm
  have hlog := flog2_lt_of_lt_zpow _ hq _ hlt
  have hE : ulpExp f (flog2 ((m : ℚ) * (2:ℚ) ^ e)) ≤ e := by
    unfold ulpExp
    have hmax : max (flog2 ((m : ℚ) * (2:ℚ) ^ e)) f.emin ≤ e + (f.prec : Int) - 1 :=
      max_le (by omega) (by omega)
    omega
  obtain ⟨d, hd⟩ := Int.le.dest hE
  have hpow : (2:ℚ) ^ e = (((2:Int) ^ d : Int) : ℚ) * ulp f ((m : ℚ) * (2:ℚ) ^ e) := by
    conv_lhs => rw [← hd]
    rw [two_zpow_split]; rfl
  have hgrid : (m : ℚ) * (2:ℚ) ^ e
      = (((m : Int) * (2:Int) ^ d : Int) : ℚ) * ulp f ((m : ℚ) * (2:ℚ) ^ e) := by
    conv_lhs => rw [hpow]
    push_cast; ring
  apply le_antisymm
  · conv_rhs => rw [hgrid]
    apply roundMag_le_of_grid f _ hq
    rw [← hgrid]
  · conv_lhs => rw [hgrid]
    apply le_roundMag_of_grid f _ hq
    rw [← hgrid]

lemma representable_lt (f : Format) (q : ℚ) (h : Representable f q) :
    q < (2:ℚ) ^ (f.emax + 1) := by
  obtain ⟨m, e, hm, _, he2, rfl⟩ := h
  have h1 : (m : ℚ) * (2:ℚ) ^ e < (2:ℚ) ^ (e + (f.prec : Int)) := by
    rw [two_zpow_split]
    apply mul_lt_mul_of_pos_right _ (two_zpow_pos e)
    exact_mod_cast hm
  refine lt_of_lt_of_le h1 ?_
  apply zpow_le_zpow_right₀ (by norm_num)
  omega

lemma ofMag_of_representable (f : Format) (s : Bool) (q : NNRat)
    (h : Representable f (q : ℚ)) : FP.ofMag f s (q : ℚ) = FP.fin s q := by
  unfold FP.ofMag
  rw [roundMag_of_representable f _ h, if_pos (representable_lt f _ h), NNRat.toNNRat_coe]

lemma isqrtAux_spec (n : Nat) : ∀ (i r : Nat), r * r ≤ n → n < (r + 2 ^ i) * (r + 2 ^ i) →
    isqrtAux n i r * isqrtAux n i r ≤ n ∧ n < (isqrtAux n i r + 1) * (isqrtAux n i r + 1)
  | 0, r, h1, h2 => by
    simp only [isqrtAux]
    exact ⟨h1, by simpa using h2⟩
  | i + 1, r, h1, h2 => by
    simp only [isqrtAux]
    by_cases hc : (r + 2 ^ i) * (r + 2 ^ i) ≤ n
    · rw [if_pos hc]
      apply isqrtAux_spec n i (r + 2 ^ i) hc
      have : r + 2 ^ i + 2 ^ i = r + 2 ^ (i + 1) := by rw [pow_succ]; ring
      rw [this]; exact h2
    · rw [if_neg hc]
      exact isqrtAux_spec n i r h1 (not_le.mp hc)

lemma isqrt_spec (n : Nat) : isqrt n * isqrt n ≤ n ∧ n < (isqrt n + 1) * (isqrt n + 1) := by
  unfold isqrt
  apply isqrtAux_spec n _ 0 (by simp)
  rw [zero_add, ← pow_add]
  rcases Nat.eq_zero_or_pos n with h0 | hpos
  · subst h0; exact Nat.pos_pow_of_pos _ (by norm_num)
  · have h := (ilog2_spec n hpos).2
    refine lt_of_lt_of_le h ?_
    apply Nat.pow_le_pow_right (by norm_num)
    omega

lemma sqrt_two_binary64 :
    FP.sqrt binary64 (FP.ofInt binary64 2)
      = FP.fin false (6369051672525773 / 4503599627370496) := by decide!

lemma tenth_binary64 :
    FP.lit 1 10 = FP.fin false (3602879701896397 / 36028797018963968) := by decide!

lemma tenth_binary32 :
    FP.toFloat (FP.lit 1 10) = FP.fin false (13421773 / 134217728) := by decide!

lemma overflow_binary32 :
    FP.ofMag binary32 false (2 ^ 128 - 2 ^ 103) = FP.inf false ∧
    FP.ofMag binary32 false (2 ^ 128 - 2 ^ 103 - 1) = FP.fin false (2 ^ 128 - 2 ^ 104) := by
  decide!

lemma sqrtMag_bracket (f : Format) (q : ℚ) (hq : 0 < q) :
    ∃ (m : Nat) (u : ℚ), 0 < u ∧ ((m : ℚ) * u) * ((m : ℚ) * u) ≤ q ∧
      q < (((m : ℚ) + 1) * u) * (((m : ℚ) + 1) * u) ∧
      ((sqrtMag f q = (m : ℚ) * u ∧ q ≤ (((m : ℚ) + 1 / 2) * u) * (((m : ℚ) + 1 / 2) * u)) ∨
       (sqrtMag f q = ((m : ℚ) + 1) * u ∧
         (((m : ℚ) + 1 / 2) * u) * (((m : ℚ) + 1 / 2) * u) ≤ q)) := by
  have hu : (0:ℚ) < (2:ℚ) ^ ulpExp f (flog2 q / 2) := two_zpow_pos _
  have huu : (0:ℚ) < (2:ℚ) ^ ulpExp f (flog2 q / 2) * (2:ℚ) ^ ulpExp f (flog2 q / 2) :=
    mul_pos hu hu
  obtain ⟨s1, s2⟩ :=
    isqrt_spec ⌊q / ((2:ℚ) ^ ulpExp f (flog2 q / 2) * (2:ℚ) ^ ulpExp f (flog2 q / 2))⌋.toNat
  have hx0 : (0:ℚ) ≤ q / ((2:ℚ) ^ ulpExp f (flog2 q / 2) * (2:ℚ) ^ ulpExp f (flog2 q / 2)) :=
    (div_pos hq huu).le
  have hfl : (0:Int) ≤
      ⌊q / ((2:ℚ) ^ ulpExp f (flog2 q / 2) * (2:ℚ) ^ ulpExp f (flog2 q / 2))⌋ :=
    Int.floor_nonneg.mpr hx0
  have hcast : ((⌊q / ((2:ℚ) ^ ulpExp f (flog2 q / 2)
      * (2:ℚ) ^ ulpExp f (flog2 q / 2))⌋.toNat : Nat) : ℚ)
      = (⌊q / ((2:ℚ) ^ ulpExp f (flog2 q / 2) * (2:ℚ) ^ ulpExp f (flog2 q / 2))⌋ : ℚ) := by
    have := Int.toNat_of_nonneg hfl
    exact_mod_cast this
  have hle : (⌊q / ((2:ℚ) ^ ulpExp f (flog2 q / 2)
      * (2:ℚ) ^ ulpExp f (flog2 q / 2))⌋ : ℚ)
      ≤ q / ((2:ℚ) ^ ulpExp f (flog2 q / 2) * (2:ℚ) ^ ulpExp f (flog2 q / 2)) :=
    Int.floor_le _
  have hlt : q / ((2:ℚ) ^ ulpExp f (flog2 q / 2) * (2:ℚ) ^ ulpExp f (flog2 q / 2))
      < (⌊q / ((2:ℚ) ^ ulpExp f (flog2 q / 2)
        * (2:ℚ) ^ ulpExp f (flog2 q / 2))⌋ : ℚ) + 1 :=
    Int.lt_floor_add_one _
  have s1q : ((isqrt ⌊q / ((2:ℚ) ^ ulpExp f (flog2 q / 2)
      * (2:ℚ) ^ ulpExp f (flog2 q / 2))⌋.toNat : Nat) : ℚ)
      * (isqrt ⌊q / ((2:ℚ) ^ ulpExp f (flog2 q / 2)
      * (2:ℚ) ^ ulpExp f (flog2 q / 2))⌋.toNat : Nat)
      ≤ q / ((2:ℚ) ^ ulpExp f (flog2 q / 2) * (2:ℚ) ^ ulpExp f (flog2 q / 2)) := by
    refine le_trans ?_ hle
    rw [← hcast]; exact_mod_cast s1
  have s2q : q / ((2:ℚ) ^ ulpExp f (flog2 q / 2) * (2:ℚ) ^ ulpExp f (flog2 q / 2))
      < (((isqrt ⌊q / ((2:ℚ) ^ ulpExp f (flog2 q / 2)
      * (2:ℚ) ^ ulpExp f (flog2 q / 2))⌋.toNat : Nat) : ℚ) + 1)
      * (((isqrt ⌊q / ((2:ℚ) ^ ulpExp f (flog2 q / 2)
      * (2:ℚ) ^ ulpExp f (flog2 q / 2))⌋.toNat : Nat) : ℚ) + 1) := by
    have h2 : (⌊q / ((2:ℚ) ^ ulpExp f (flog2 q / 2)
        * (2:ℚ) ^ ulpExp f (flog2 q / 2))⌋ : ℚ) + 1
        ≤ (((isqrt ⌊q / ((2:ℚ) ^ ulpExp f (flog2 q / 2)
        * (2:ℚ) ^ ulpExp f (flog2 q / 2))⌋.toNat : Nat) : ℚ) + 1)
        * (((isqrt ⌊q / ((2:ℚ) ^ ulpExp f (flog2 q / 2)
        * (2:ℚ) ^ ulpExp f (flog2 q / 2))⌋.toNat : Nat) : ℚ) + 1) := by
      rw [← hcast]
      have : ⌊q / ((2:ℚ) ^ ulpExp f (flog2 q / 2)
          * (2:ℚ) ^ ulpExp f (flog2 q / 2))⌋.toNat + 1
          ≤ (isqrt ⌊q / ((2:ℚ) ^ ulpExp f (flog2 q / 2)
          * (2:ℚ) ^ ulpExp f (flog2 q / 2))⌋.toNat + 1)
          * (isqrt ⌊q / ((2:ℚ) ^ ulpExp f (flog2 q / 2)
          * (2:ℚ) ^ ulpExp f (flog2 q / 2))⌋.toNat + 1) := s2
      exact_mod_cast this
    exact lt_of_lt_of_le hlt h2
  refine ⟨isqrt ⌊q / ((2:ℚ) ^ ulpExp f (flog2 q / 2)
    * (2:ℚ) ^ ulpExp f (flog2 q / 2))⌋.toNat, (2:ℚ) ^ ulpExp f (flog2 q / 2), hu, ?_, ?_, ?_⟩
  · have := (le_div_iff₀ huu).mp s1q
    linarith
  · have := (div_lt_iff₀ huu).mp s2q
    linarith
  · unfold sqrtMag
    rw [if_neg (not_le.mpr hq)]
    simp only []
    split_ifs with h1 h2 h3
    · exact Or.inl ⟨rfl, h1.le⟩
    · exact Or.inr ⟨rfl, h2.le⟩
    · exact Or.inl ⟨rfl, not_lt.mp h2⟩
    · exact Or.inr ⟨rfl, not_lt.mp h1⟩

/-! ## Signs, special values and bounds -/

lemma ofMag_cases (f : Format) (s : Bool) (q : ℚ) :
    FP.ofMag f s q = FP.fin s (roundMag f q).toNNRat ∨ FP.ofMag f s q = FP.inf s := by
  unfold FP.ofMag; split_ifs
  · exact Or.inl rfl
  · exact Or.inr rfl

lemma ofMag_ne_nan (f : Format) (s : Bool) (q : ℚ) : FP.ofMag f s q ≠ FP.nan := by
  rcases ofMag_cases f s q with h | h <;> rw [h] <;> simp

lemma ofMag_zero (f : Format) (s : Bool) : FP.ofMag f s 0 = FP.fin s 0 := by
  unfold FP.ofMag
  rw [roundMag_of_nonpos f 0 le_rfl, if_pos (two_zpow_pos _)]
  simp

lemma pos_cases (x : FP) (h : FP.lt (FP.fin false 0) x = true) :
    x = FP.inf false ∨ ∃ q : NNRat, x = FP.fin false q ∧ 0 < q := by
  cases x with
  | nan => simp [FP.lt] at h
  | inf t => cases t <;> simp_all [FP.lt]
  | fin t q =>
    cases t
    · right
      refine ⟨q, rfl, ?_⟩
      simpa [FP.lt, FP.signed] using h
    · exfalso
      simp only [FP.lt, FP.signed, decide_eq_true_eq, Bool.false_eq_true, if_false, if_true,
        NNRat.coe_zero] at h
      have : (0:ℚ) ≤ (q : ℚ) := q.2
      linarith

lemma lit_half : FP.lit 1 2 = FP.fin false (1 / 2) := by decide!

lemma lit_micro_pos : FP.lt (FP.fin false 0) (FP.lit 1 1000000) = true := by decide!

lemma ofInt_one (f : Format) (h : f = binary32 ∨ f = binary64) :
    FP.ofInt f 1 = FP.fin false 1 := by
  rcases h with rfl | rfl <;> decide!

lemma div_half_ne_nan (x : FP) (hx : x ≠ FP.nan) : FP.div binary64 (FP.lit 1 2) x ≠ FP.nan := by
  rw [lit_half]
  cases x with
  | nan => exact absurd rfl hx
  | inf t => simp [FP.div]
  | fin t q =>
    unfold FP.div
    by_cases hq : q = 0
    · simp [hq]
    · simp only [hq, if_false]; exact ofMag_ne_nan _ _ _

lemma ofInt_cases (f : Format) (i : Int) :
    FP.ofInt f i = FP.fin (decide (i < 0)) (roundMag f (i.natAbs : ℚ)).toNNRat ∨
    FP.ofInt f i = FP.inf (decide (i < 0)) := ofMag_cases _ _ _

lemma mul_fin_ne_nan (f : Format) (x : FP) (hx : x ≠ FP.nan) (t : Bool) (q : NNRat)
    (hq : q ≠ 0) : FP.mul f x (FP.fin t q) ≠ FP.nan := by
  cases x with
  | nan => exact absurd rfl hx
  | inf s => simp [FP.mul, hq]
  | fin s p => simp only [FP.mul]; exact ofMag_ne_nan _ _ _

lemma pos_of_not_lt (x c : FP) (hx : x ≠ FP.nan) (hc : FP.lt (FP.fin false 0) c = true)
    (h : FP.lt x c = false) : FP.lt (FP.fin false 0) x = true := by
  rcases pos_cases c hc with rfl | ⟨cq, rfl, hcq⟩
  · cases x with
    | nan => exact absurd rfl hx
    | inf s => cases s <;> simp_all [FP.lt]
    | fin s p => simp [FP.lt] at h
  · cases x with
    | nan => exact absurd rfl hx
    | inf s => cases s <;> simp_all [FP.lt]
    | fin s p =>
      simp only [FP.lt, decide_eq_false_iff_not, not_lt] at h
      simp only [FP.lt, decide_eq_true_eq]
      have h0 : (0:ℚ) < (cq : ℚ) := by exact_mod_cast hcq
      have h1 : FP.signed false cq = (cq : ℚ) := by simp [FP.signed]
      have h2 : FP.signed false 0 = 0 := by simp [FP.signed]
      rw [h1] at h; rw [h2]; linarith

lemma one_le_roundMag (f : Format) (hp : 1 ≤ f.prec) (h1 : roundMag f 1 = 1) (q : ℚ)
    (hq : 1 ≤ q) : 1 ≤ roundMag f q := by
  rw [← h1]; exact roundMag_mono f hp 1 q hq

lemma roundMag64_one : roundMag binary64 1 = 1 := by decide!

lemma setup_dt (a : Args) :
    (setup a).dt = FP.div binary64 (FP.lit 1 2)
      (FP.mul binary32 (FP.ofInt binary32 (setup a).nfpeak) (setup a).fpeak) := rfl

lemma setup_fmax (a : Args) :
    (setup a).fmax = FP.mul binary32 (FP.ofInt binary32 (setup a).nfpeak) (setup a).fpeak := rfl

lemma main_of_dt_small (E : Alloc) (K : Kernel) (a : Args)
    (h : FP.lt (setup a).dt (FP.lit 1 1000000) = true) :
    main_sudgwaveform E K false a
      = [Call.setSUDoc, Call.setError "single-precision exceeded: reduce nfpeak or fpeak"] := by
  simp [main_sudgwaveform, tryBlock, h, Ending.calls]

lemma main_of_alloc_failed (E : Alloc) (K : Kernel) (a : Args)
    (h : FP.lt (setup a).dt (FP.lit 1 1000000) = false) (hnt : (setup a).nt < 0) :
    main_sudgwaveform E K false a = Call.setSUDoc :: (E (setup a).nt).ending.calls := by
  simp [main_sudgwaveform, tryBlock, h, hnt]

lemma main_of_order_small (E : Alloc) (K : Kernel) (a : Args)
    (h : FP.lt (setup a).dt (FP.lit 1 1000000) = false) (hnt : 0 ≤ (setup a).nt)
    (hn : (setup a).n < 1) :
    main_sudgwaveform E K false a = [Call.setSUDoc, Call.setError "specified n not >=1 !!"] := by
  simp [main_sudgwaveform, tryBlock, h, not_lt.mpr hnt, not_le.mpr hn, Ending.calls]

lemma main_of_accepted (E : Alloc) (K : Kernel) (a : Args)
    (h : FP.lt (setup a).dt (FP.lit 1 1000000) = false) (hnt : 0 ≤ (setup a).nt)
    (hn : 1 ≤ (setup a).n) :
    main_sudgwaveform E K false a
      = [Call.setSUDoc,
         Call.putTrace (makeTrace (setup a)
           (K (setup a).dt (setup a).nt (setup a).t0 (setup a).fpeak (setup a).n
             (fun _ => FP.fin false 0) (setup a).sign (setup a).verbose)),
         Call.setEOF] := by
  simp [main_sudgwaveform, tryBlock, h, not_lt.mpr hnt, hn, Ending.calls]

lemma failure_calls_cases (f : Failure) :
    (f.ending.calls = [] ∧ f = Failure.exits) ∨
    ∃ msg, f.ending.calls = [Call.setError msg] ∧ f = Failure.throws msg := by
  cases f with
  | throws msg => exact Or.inr ⟨msg, rfl, rfl⟩
  | exits => exact Or.inl ⟨rfl, rfl⟩

lemma failure_calls_no_trace (f : Failure) :
    putsTrace (Call.setSUDoc :: f.ending.calls) = false ∧
    setsEOF (Call.setSUDoc :: f.ending.calls) = false := by
  cases f <;> exact ⟨rfl, rfl⟩

lemma accepted_of_trace (E : Alloc) (K : Kernel) (a : Args)
    (h : putsTrace (main_sudgwaveform E K false a) = true) :
    FP.lt (setup a).dt (FP.lit 1 1000000) = false ∧ 0 ≤ (setup a).nt ∧ 1 ≤ (setup a).n := by
  cases hlt : FP.lt (setup a).dt (FP.lit 1 1000000)
  · refine ⟨rfl, ?_⟩
    by_cases hnt : (setup a).nt < 0
    · rw [main_of_alloc_failed E K a hlt hnt, (failure_calls_no_trace _).1] at h
      exact absurd h (by simp)
    · refine ⟨not_lt.mp hnt, ?_⟩
      by_contra hn
      rw [main_of_order_small E K a hlt (not_lt.mp hnt) (not_le.mp hn)] at h
      simp [putsTrace] at h
  · rw [main_of_dt_small E K a hlt] at h
    simp [putsTrace] at h

lemma lt_false_of_le (a b : FP) (h : FP.le a b = true) : FP.lt b a = false := by
  cases a with
  | nan => simp [FP.le] at h
  | inf s =>
    cases b with
    | nan => simp [FP.le] at h
    | inf t => cases s <;> cases t <;> simp_all [FP.le, FP.lt]
    | fin t q => simp_all [FP.le, FP.lt]
  | fin s p =>
    cases b with
    | nan => simp [FP.le] at h
    | inf t => simp_all [FP.le, FP.lt]
    | fin t q =>
      simp only [FP.le, decide_eq_true_eq] at h
      simp only [FP.lt, decide_eq_false_iff_not, not_lt]
      exact h

lemma setup_nt (a : Args) :
    (setup a).nt = a.nt.getD (FP.toInt (ntValue (setup a).t0 (setup a).dt)) := rfl

lemma makeTrace_length (p : Setup) (w : Nat → FP) :
    (makeTrace p w).data.length = p.nt.toNat := by
  simp [makeTrace]

lemma makeTrace_get (p : Setup) (w : Nat → FP) (i : Nat) (h : (i : Int) < p.nt) :
    (makeTrace p w).data[i]? = some (FP.toFloat (w i)) := by
  have hi : i < p.nt.toNat := by omega
  simp [makeTrace, List.getElem?_map, List.getElem?_range hi]

lemma NINT_near (s : Bool) (q : NNRat) (h : (q : ℚ) + 1 / 2 < 2147483648) :
    |((NINT (FP.fin s q) : Int) : ℚ) - FP.signed s q| ≤ 1 / 2 := by
  have h1 : (⌊(q : ℚ) + 1 / 2⌋ : ℚ) ≤ (q : ℚ) + 1 / 2 := Int.floor_le _
  have h2 : (q : ℚ) + 1 / 2 < (⌊(q : ℚ) + 1 / 2⌋ : ℚ) + 1 := Int.lt_floor_add_one _
  have hq : (0:ℚ) ≤ (q : ℚ) := q.2
  have h3 : (0:Int) ≤ ⌊(q : ℚ) + 1 / 2⌋ := Int.floor_nonneg.mpr (by linarith)
  have h4 : ⌊(q : ℚ) + 1 / 2⌋ < 2147483648 := by
    have : (⌊(q : ℚ) + 1 / 2⌋ : ℚ) < 2147483648 := lt_of_le_of_lt h1 h
    exact_mod_cast this
  cases s
  · have hr : NINT (FP.fin false q) = ⌊(q : ℚ) + 1 / 2⌋ := by
      simp only [NINT, INT_MIN, INT_MAX, Bool.false_eq_true, if_false]
      rw [if_pos]; constructor <;> omega
    rw [hr]; simp only [FP.signed, Bool.false_eq_true, if_false]
    rw [abs_le]; constructor <;> linarith
  · have hr : NINT (FP.fin true q) = -⌊(q : ℚ) + 1 / 2⌋ := by
      simp only [NINT, INT_MIN, INT_MAX, if_true]
      rw [if_pos]; constructor <;> omega
    rw [hr]; simp only [FP.signed, if_true]
    push_cast
    rw [abs_le]; constructor <;> linarith

/-! ## The error of a rounding, and what a rounding delivers -/

lemma rne_abs_sub_le (x : ℚ) : |((rne x : Int) : ℚ) - x| ≤ 1 / 2 := by
  have h1 : (⌊x⌋ : ℚ) ≤ x := Int.floor_le x
  have h2 : x < (⌊x⌋ : ℚ) + 1 := Int.lt_floor_add_one x
  unfold rne
  split_ifs with a b c
  · rw [abs_le]; constructor <;> linarith
  · rw [abs_le]; push_cast; constructor <;> linarith
  · rw [abs_le]; constructor <;> linarith
  · rw [abs_le]; push_cast; constructor <;> linarith

lemma roundMag_abs_sub_le (f : Format) (q : ℚ) (hq : 0 ≤ q) :
    |roundMag f q - q| ≤ ulp f q / 2 := by
  rcases eq_or_lt_of_le hq with h0 | hpos
  · rw [← h0, roundMag_of_nonpos f 0 le_rfl]
    simp only [sub_zero, abs_zero]
    exact (div_pos (ulp_pos f 0) (by norm_num)).le
  · rw [roundMag_of_pos f q hpos]
    have hu := ulp_pos f q
    have key : (rne (q / ulp f q) : ℚ) * ulp f q - q
        = ((rne (q / ulp f q) : ℚ) - q / ulp f q) * ulp f q := by
      field_simp
    rw [key, abs_mul, abs_of_pos hu]
    have := rne_abs_sub_le (q / ulp f q)
    calc |(rne (q / ulp f q) : ℚ) - q / ulp f q| * ulp f q
        ≤ 1 / 2 * ulp f q := mul_le_mul_of_nonneg_right this hu.le
      _ = ulp f q / 2 := by ring

lemma roundMag_representable (f : Format) (hp : 1 ≤ f.prec) (he : f.emin ≤ f.emax) (q : ℚ)
    (h : roundMag f q < (2:ℚ) ^ (f.emax + 1)) : Representable f (roundMag f q) := by
  rcases le_or_lt q 0 with hq | hq
  · rw [roundMag_of_nonpos f q hq]
    exact ⟨0, f.emin - ((f.prec : Int) - 1), Nat.pos_pow_of_pos _ (by norm_num), le_rfl,
      by omega, by simp⟩
  have hE1 : f.emin - ((f.prec : Int) - 1) ≤ ulpExp f (flog2 q) := by
    unfold ulpExp
    have := le_max_right (flog2 q) f.emin
    omega
  have hM0 : (0:Int) ≤ rne (q / ulp f q) :=
    le_rne_of_le _ 0 (by simpa using (div_pos hq (ulp_pos f q)).le)
  have hle := roundMag_le_pow f q hq
  rw [two_zpow_split] at hle
  have hval := roundMag_of_pos f q hq
  have hMle : rne (q / ulp f q) ≤ (2:Int) ^ f.prec := by
    rw [hval] at hle
    have h1 : (rne (q / ulp f q) : ℚ) ≤ (((2:Int) ^ f.prec : Int) : ℚ) :=
      le_of_mul_le_mul_right hle (ulp_pos f q)
    exact_mod_cast h1
  rcases eq_or_lt_of_le hMle with hMeq | hMlt
  · -- the rounding reached the next power of two
    have hv : roundMag f q = (2:ℚ) ^ (ulpExp f (flog2 q) + (f.prec : Int)) := by
      rw [hval, hMeq, two_zpow_split]; rfl
    rw [hv] at h
    have hlt := (zpow_lt_zpow_iff_right₀ (by norm_num : (1:ℚ) < 2)).mp h
    refine ⟨2 ^ (f.prec - 1), ulpExp f (flog2 q) + 1,
      Nat.pow_lt_pow_right (by norm_num) (by omega), by omega, by omega, ?_⟩
    rw [hv]
    have hsplit : ulpExp f (flog2 q) + (f.prec : Int)
        = (ulpExp f (flog2 q) + 1) + ((f.prec - 1 : Nat) : Int) := by omega
    rw [hsplit, two_zpow_split]
    push_cast; ring
  · have hE2 : ulpExp f (flog2 q) ≤ f.emax - ((f.prec : Int) - 1) := by
      by_cases hlog : f.emin ≤ flog2 q
      · have h1 := pow_le_roundMag f hp q hq hlog
        have h2 := (zpow_lt_zpow_iff_right₀ (by norm_num : (1:ℚ) < 2)).mp (lt_of_le_of_lt h1 h)
        unfold ulpExp
        rw [max_eq_left hlog]; omega
      · unfold ulpExp
        rw [max_eq_right (by omega)]; omega
    refine ⟨(rne (q / ulp f q)).toNat, ulpExp f (flog2 q), ?_, hE1, hE2, ?_⟩
    · have : ((rne (q / ulp f q)).toNat : Int) < (2:Int) ^ f.prec := by
        rw [Int.toNat_of_nonneg hM0]; exact hMlt
      exact_mod_cast this
    · rw [hval]
      have : (((rne (q / ulp f q)).toNat : Nat) : ℚ) = (rne (q / ulp f q) : ℚ) := by
        have := Int.toNat_of_nonneg hM0
        exact_mod_cast this
      rw [this]; rfl

lemma ofMag_isFloat (f : Format) (hp : 1 ≤ f.prec) (he : f.emin ≤ f.emax) (s : Bool) (q : ℚ) :
    FP.IsFloat f (FP.ofMag f s q) := by
  unfold FP.ofMag
  split_ifs with h
  · show Representable f (((roundMag f q).toNNRat : NNRat) : ℚ)
    rw [Rat.coe_toNNRat _ (roundMag_nonneg f q)]
    exact roundMag_representable f hp he q h
  · trivial

lemma toFloat_isFloat (x : FP) : FP.IsFloat binary32 (FP.toFloat x) := by
  cases x with
  | nan => trivial
  | inf s => trivial
  | fin s q => exact ofMag_isFloat binary32 (by decide) (by decide) s _

lemma toFloat_of_isFloat (x : FP) (h : FP.IsFloat binary32 x) : FP.toFloat x = x := by
  cases x with
  | nan => rfl
  | inf s => rfl
  | fin s q => exact ofMag_of_representable binary32 s q h

lemma largest_float_fixed :
    roundMag binary32 ((2:ℚ) ^ 128 - (2:ℚ) ^ 104) = (2:ℚ) ^ 128 - (2:ℚ) ^ 104 := by decide!

lemma toFloat_fin (s : Bool) (q : NNRat) :
    (FP.toFloat (FP.fin s q) = FP.inf s ∧ (2:ℚ) ^ 128 - (2:ℚ) ^ 104 < (q : ℚ)) ∨
    ∃ r : NNRat, FP.toFloat (FP.fin s q) = FP.fin s r ∧
      |(r : ℚ) - (q : ℚ)| ≤ ulp binary32 (q : ℚ) / 2 := by
  have hq : (0:ℚ) ≤ (q : ℚ) := q.2
  show (FP.ofMag binary32 s (q : ℚ) = FP.inf s ∧ _) ∨ ∃ r : NNRat,
    FP.ofMag binary32 s (q : ℚ) = FP.fin s r ∧ _
  unfold FP.ofMag
  split_ifs with h
  · right
    refine ⟨_, rfl, ?_⟩
    rw [Rat.coe_toNNRat _ (roundMag_nonneg _ _)]
    exact roundMag_abs_sub_le binary32 _ hq
  · left
    refine ⟨rfl, ?_⟩
    by_contra hle
    have hmono := roundMag_mono binary32 (by decide) _ _ (not_lt.mp hle)
    rw [largest_float_fixed] at hmono
    apply h
    refine lt_of_le_of_lt hmono ?_
    show (2:ℚ) ^ 128 - (2:ℚ) ^ 104 < (2:ℚ) ^ ((127 : Int) + 1)
    norm_num

/-! ## An order below zero -/

lemma toInt_fin (s : Bool) (q : NNRat) (h : (q : ℚ) < 2147483648) :
    FP.toInt (FP.fin s q) = if s then -⌊(q : ℚ)⌋ else ⌊(q : ℚ)⌋ := by
  have hq : (0:ℚ) ≤ (q : ℚ) := q.2
  have h0 : (0:Int) ≤ ⌊(q : ℚ)⌋ := Int.floor_nonneg.mpr hq
  have h1 : ⌊(q : ℚ)⌋ < 2147483648 := by
    have : (⌊(q : ℚ)⌋ : ℚ) < 2147483648 := lt_of_le_of_lt (Int.floor_le _) h
    exact_mod_cast this
  unfold FP.toInt
  cases s
  · simp only [INT_MIN, INT_MAX, Bool.false_eq_true, if_false]
    rw [if_pos]; constructor <;> omega
  · simp only [INT_MIN, INT_MAX, if_true]
    rw [if_pos]; constructor <;> omega

lemma mul_one_of_isFloat (x : FP) (h : FP.IsFloat binary32 x) :
    FP.mul binary32 (FP.ofInt binary32 1) x = x := by
  rw [ofInt_one binary32 (Or.inl rfl)]
  cases x with
  | nan => rfl
  | inf t => simp [FP.mul]
  | fin t q =>
    simp only [FP.mul, Bool.false_bne, NNRat.coe_one, one_mul]
    exact ofMag_of_representable binary32 t q h

lemma wrap32_of_range (x : Int) (h1 : -2147483648 ≤ x) (h2 : x ≤ 2147483647) : wrap32 x = x := by
  unfold wrap32; omega

lemma sq_le_of_abs (n : Int) (h1 : -46340 ≤ n) (h2 : n ≤ 46340) :
    0 ≤ n * n ∧ n * n ≤ 2147395600 := by
  constructor
  · exact mul_self_nonneg n
  · nlinarith

lemma setup_nfpeak_default (a : Args) (h : a.nfpeak = none)
    (h1 : -46340 ≤ (setup a).n) (h2 : (setup a).n ≤ 46340) :
    (setup a).nfpeak = (setup a).n * (setup a).n := by
  have hs := sq_le_of_abs _ h1 h2
  show a.nfpeak.getD (wrap32 ((setup a).n * (setup a).n)) = _
  rw [h]
  exact wrap32_of_range _ (by omega) (by omega)

/-! ## The precision guard at the default peak frequency -/

lemma ofMag_nonNeg (f : Format) (q : ℚ) : FP.NonNeg (FP.ofMag f false q) := by
  rcases ofMag_cases f false q with h | h <;> rw [h] <;> simp [FP.NonNeg]

lemma ofMag_zero_nonNeg (f : Format) (s : Bool) : FP.NonNeg (FP.ofMag f s 0) := by
  rw [ofMag_zero]; simp [FP.NonNeg]

lemma ofInt_nonNeg (f : Format) (i : Int) (hi : 0 ≤ i) : FP.NonNeg (FP.ofInt f i) := by
  have hd : decide (i < 0) = false := by simp; omega
  unfold FP.ofInt; rw [hd]; exact ofMag_nonNeg f _

lemma mul_nonNeg (f : Format) (a b : FP) (ha : FP.NonNeg a) (hb : FP.NonNeg b) :
    FP.NonNeg (FP.mul f a b) := by
  cases a with
  | nan => cases b <;> simp [FP.mul, FP.NonNeg]
  | inf s =>
    cases b with
    | nan => simp [FP.mul, FP.NonNeg]
    | inf t =>
      simp only [FP.NonNeg] at ha hb
      subst ha; subst hb; simp [FP.mul, FP.NonNeg]
    | fin t q =>
      simp only [FP.NonNeg] at ha hb
      subst ha
      by_cases hq : q = 0
      · simp [FP.mul, FP.NonNeg, hq]
      · rcases hb with hb | hb
        · subst hb; simp [FP.mul, FP.NonNeg, hq]
        · exact absurd hb hq
  | fin s p =>
    cases b with
    | nan => simp [FP.mul, FP.NonNeg]
    | inf t =>
      simp only [FP.NonNeg] at ha hb
      subst hb
      by_cases hp : p = 0
      · simp [FP.mul, FP.NonNeg, hp]
      · rcases ha with ha | ha
        · subst ha; simp [FP.mul, FP.NonNeg, hp]
        · exact absurd ha hp
    | fin t q =>
      simp only [FP.NonNeg] at ha hb
      simp only [FP.mul]
      by_cases hp : p = 0
      · subst hp; simp only [NNRat.coe_zero, zero_mul]; exact ofMag_zero_nonNeg f _
      by_cases hq : q = 0
      · subst hq; simp only [NNRat.coe_zero, mul_zero]; exact ofMag_zero_nonNeg f _
      have hs : s = false := by rcases ha with h | h; exact h; exact absurd h hp
      have ht : t = false := by rcases hb with h | h; exact h; exact absurd h hq
      subst hs; subst ht
      exact ofMag_nonNeg f _

lemma div_nonNeg (f : Format) (a b : FP) (ha : FP.NonNeg a) (hb : FP.SignClear b) :
    FP.NonNeg (FP.div f a b) := by
  cases a with
  | nan => cases b <;> simp [FP.div, FP.NonNeg]
  | inf s =>
    cases b with
    | nan => simp [FP.div, FP.NonNeg]
    | inf t => simp [FP.div, FP.NonNeg]
    | fin t q =>
      simp only [FP.NonNeg] at ha
      simp only [FP.SignClear] at hb
      subst ha; subst hb; simp [FP.div, FP.NonNeg]
  | fin s p =>
    cases b with
    | nan => simp [FP.div, FP.NonNeg]
    | inf t => simp [FP.div, FP.NonNeg]
    | fin t q =>
      simp only [FP.NonNeg] at ha
      simp only [FP.SignClear] at hb
      subst hb
      simp only [FP.div]
      by_cases hp : p = 0
      · subst hp
        by_cases hq : q = 0
        · simp [hq, FP.NonNeg]
        · simp only [hq, if_false, NNRat.coe_zero, zero_div]; exact ofMag_zero_nonNeg f _
      · have hs : s = false := by rcases ha with h | h; exact h; exact absurd h hp
        subst hs
        by_cases hq : q = 0
        · simp [hq, hp, FP.NonNeg]
        · simp only [hq, if_false]; exact ofMag_nonNeg f _

lemma add_nonNeg (f : Format) (a b : FP) (ha : FP.NonNeg a) (hb : FP.NonNeg b) :
    FP.NonNeg (FP.add f a b) := by
  cases a with
  | nan => cases b <;> simp [FP.add, FP.NonNeg]
  | inf s =>
    cases b with
    | nan => simp [FP.add, FP.NonNeg]
    | inf t =>
      simp only [FP.NonNeg] at ha hb
      subst ha; subst hb; simp [FP.add, FP.NonNeg]
    | fin t q => simpa [FP.add, FP.NonNeg] using ha
  | fin s p =>
    cases b with
    | nan => simp [FP.add, FP.NonNeg]
    | inf t => simpa [FP.add, FP.NonNeg] using hb
    | fin t q =>
      simp only [FP.NonNeg] at ha hb
      simp only [FP.add]
      by_cases hst : s = t
      · subst hst
        simp only [if_true]
        cases s
        · exact ofMag_nonNeg f _
        · have hp : p = 0 := by rcases ha with h | h; exact absurd h (by simp); exact h
          have hq : q = 0 := by rcases hb with h | h; exact absurd h (by simp); exact h
          subst hp; subst hq
          simp only [NNRat.coe_zero, add_zero]; exact ofMag_zero_nonNeg f _
      · simp only [hst, if_false]
        by_cases hpq : p = q
        · simp [hpq, FP.NonNeg]
        · simp only [hpq, if_false]
          by_cases hlt : q < p
          · simp only [hlt, if_true]
            have hp : p ≠ 0 := by
              intro h; rw [h] at hlt; exact absurd hlt (not_lt.mpr (zero_le q))
            have hs : s = false := by rcases ha with h | h; exact h; exact absurd h hp
            subst hs; exact ofMag_nonNeg f _
          · simp only [hlt, if_false]
            have hlt2 : p < q := lt_of_le_of_ne (not_lt.mp hlt) hpq
            have hq : q ≠ 0 := by
              intro h; rw [h] at hlt2; exact absurd hlt2 (not_lt.mpr (zero_le p))
            have ht : t = false := by rcases hb with h | h; exact h; exact absurd h hq
            subst ht; exact ofMag_nonNeg f _

lemma sqrt_nonNeg (f : Format) (a : FP) (ha : FP.NonNeg a) : FP.NonNeg (FP.sqrt f a) := by
  cases a with
  | nan => simp [FP.sqrt, FP.NonNeg]
  | inf s => simp only [FP.NonNeg] at ha; subst ha; simp [FP.sqrt, FP.NonNeg]
  | fin s q =>
    simp only [FP.NonNeg] at ha
    simp only [FP.sqrt]
    by_cases hq : q = 0
    · simp [hq, FP.NonNeg]
    · have hs : s = false := by rcases ha with h | h; exact h; exact absurd h hq
      subst hs; simp [hq, FP.NonNeg]

lemma nonNeg_of_zero_le (x : FP) (h : FP.le (FP.fin false 0) x = true) : FP.NonNeg x := by
  cases x with
  | nan => trivial
  | inf t => simpa [FP.le, FP.NonNeg] using h
  | fin t q =>
    cases t
    · simp [FP.NonNeg]
    · simp only [FP.le, FP.signed, decide_eq_true_eq, Bool.false_eq_true, if_false, if_true,
        NNRat.coe_zero] at h
      have h0 : (0:ℚ) ≤ (q : ℚ) := q.2
      have h1 : (q : ℚ) = 0 := by linarith
      right; exact_mod_cast h1

lemma signClear_of_not_lt (x c : FP) (hc : FP.lt (FP.fin false 0) c = true)
    (h : FP.lt x c = false) : FP.SignClear x := by
  rcases pos_cases c hc with rfl | ⟨cq, rfl, hcq⟩
  · cases x with
    | nan => trivial
    | inf s => simpa [FP.lt, FP.SignClear] using h
    | fin s p => simp [FP.lt] at h
  · cases x with
    | nan => trivial
    | inf s => simpa [FP.lt, FP.SignClear] using h
    | fin s p =>
      cases s
      · simp [FP.SignClear]
      · exfalso
        simp only [FP.lt, FP.signed, decide_eq_false_iff_not, not_lt, Bool.false_eq_true,
          if_false, if_true] at h
        have h0 : (0:ℚ) ≤ (p : ℚ) := p.2
        have h1 : (0:ℚ) < (cq : ℚ) := by exact_mod_cast hcq
        linarith

lemma add_one_cases (x : FP) (hx : FP.NonNeg x) (s : Bool) (r : NNRat)
    (h : FP.add binary64 x (FP.ofInt binary64 1) = FP.fin s r) : s = false ∧ 1 ≤ (r : ℚ) := by
  rw [ofInt_one binary64 (Or.inr rfl)] at h
  have key : ∀ y : ℚ, 1 ≤ y → FP.ofMag binary64 false y = FP.fin s r → s = false ∧ 1 ≤ (r : ℚ) := by
    intro y hy he
    rcases ofMag_cases binary64 false y with h1 | h1
    · rw [h1] at he
      injection he with hs hr
      refine ⟨hs.symm, ?_⟩
      rw [← hr, Rat.coe_toNNRat _ (roundMag_nonneg _ _)]
      exact one_le_roundMag binary64 (by decide) roundMag64_one y hy
    · rw [h1] at he; exact absurd he (by simp)
  cases x with
  | nan => simp [FP.add] at h
  | inf t => simp [FP.add] at h
  | fin t q =>
    simp only [FP.NonNeg] at hx
    have hq0 : (0:ℚ) ≤ (q : ℚ) := q.2
    cases t
    · simp only [FP.add, if_true, NNRat.coe_one] at h
      exact key _ (by linarith) h
    · have hq : q = 0 := by rcases hx with h' | h'; exact absurd h' (by simp); exact h'
      subst hq
      simp only [FP.add, Bool.true_eq_false, if_false, zero_ne_one, not_lt_zero', NNRat.coe_one,
        NNRat.coe_zero, sub_zero] at h
      exact key _ le_rfl h

lemma lit_two31 : FP.lit 2147483648 1 = FP.fin false 2147483648 := by decide!

/-! ## Polarity -/

lemma ofMag_neg (f : Format) (s : Bool) (q : ℚ) :
    FP.ofMag f (!s) q = FP.neg (FP.ofMag f s q) := by
  unfold FP.ofMag; split_ifs <;> rfl

lemma mul_neg_left (f : Format) (a b : FP) :
    FP.mul f (FP.neg a) b = FP.neg (FP.mul f a b) := by
  cases a with
  | nan => cases b <;> rfl
  | inf s =>
    cases b with
    | nan => rfl
    | inf t => cases s <;> cases t <;> rfl
    | fin t q =>
      simp only [FP.neg, FP.mul]
      split_ifs
      · rfl
      · cases s <;> cases t <;> rfl
  | fin s p =>
    cases b with
    | nan => rfl
    | inf t =>
      simp only [FP.neg, FP.mul]
      split_ifs
      · rfl
      · cases s <;> cases t <;> rfl
    | fin t q =>
      simp only [FP.neg, FP.mul]
      have hx : xor (!s) t = !(xor s t) := by cases s <;> cases t <;> rfl
      rw [hx]; exact ofMag_neg f _ _

lemma toFloat_neg (x : FP) : FP.toFloat (FP.neg x) = FP.neg (FP.toFloat x) := by
  cases x with
  | nan => rfl
  | inf s => rfl
  | fin s q => exact ofMag_neg binary32 s _

lemma ofInt_neg_one : FP.ofInt binary64 (-1) = FP.neg (FP.ofInt binary64 1) := by decide!

lemma deriv_n_gauss_neg (sigma : FP → Int → FP) (fexp : FP → FP) (dt : FP) (nt : Int)
    (t0 fpeak : FP) (n : Int) (w : Nat → FP) (verbose : Int) (i : Nat) (hi : (i : Int) < nt) :
    deriv_n_gauss sigma fexp dt nt t0 fpeak n w (-1) verbose i
      = FP.neg (deriv_n_gauss sigma fexp dt nt t0 fpeak n w 1 verbose i) := by
  simp only [deriv_n_gauss, hi, if_true]
  rw [ofInt_neg_one, mul_neg_left, mul_neg_left, mul_neg_left]

lemma makeTrace_neg (p p' : Setup) (w w' : Nat → FP) (hnt : p'.nt = p.nt) (hdt : p'.dt = p.dt)
    (hw : ∀ i : Nat, (i : Int) < p.nt → w' i = FP.neg (w i)) :
    makeTrace p' w' = { makeTrace p w with data := (makeTrace p w).data.map FP.neg } := by
  simp only [makeTrace, segy.mk.injEq, hnt, hdt, true_and, List.map_map]
  apply List.map_congr_left
  intro i hi
  have hi' : (i : Int) < p.nt := by
    have := List.mem_range.mp hi
    omega
  simp only [Function.comp]
  rw [hw i hi', toFloat_neg]

lemma hermite_zero (x : FP) : hermite 0 x = FP.ofInt binary64 1 := rfl

lemma hermite_one (x : FP) : hermite 1 x = x := rfl

lemma hermite_step (k : Nat) (x : FP) :
    hermite (k + 2) x = FP.sub binary64 (FP.mul binary64 x (hermite (k + 1) x))
      (FP.mul binary64 (FP.ofInt binary64 ((k : Int) + 1)) (hermite k x)) := rfl

lemma toInt_nonneg_cases (v : FP) (h : 0 ≤ FP.toInt v) :
    ∃ (s : Bool) (r : NNRat), v = FP.fin s r ∧
      FP.toInt v = if s then -⌊(r : ℚ)⌋ else ⌊(r : ℚ)⌋ := by
  have hmin : ¬ (0:Int) ≤ INT_MIN := by decide
  cases v with
  | nan => exact absurd h hmin
  | inf s => exact absurd h hmin
  | fin s r =>
    refine ⟨s, r, rfl, ?_⟩
    simp only [FP.toInt] at h ⊢
    by_cases hc : (INT_MIN ≤ if s then -⌊(r : ℚ)⌋ else ⌊(r : ℚ)⌋) ∧
        (if s then -⌊(r : ℚ)⌋ else ⌊(r : ℚ)⌋) ≤ INT_MAX
    · rw [if_pos hc]
    · rw [if_neg hc] at h; exact absurd h hmin

lemma value_nonNeg_of_t0 (a : Args) (ht : FP.le (FP.fin false 0) (setup a).t0 = true)
    (hdt : FP.lt (setup a).dt (FP.lit 1 1000000) = false) :
    FP.NonNeg (FP.div binary64 (FP.mul binary64 (FP.ofInt binary64 2) (setup a).t0)
      (setup a).dt) :=
  div_nonNeg _ _ _
    (mul_nonNeg _ _ _ (ofInt_nonNeg _ _ (by decide)) (nonNeg_of_zero_le _ ht))
    (signClear_of_not_lt _ _ lit_micro_pos hdt)

/-- C3, as the code has it: for `n=2 fpeak=35` the value `2 * t0 / dt + 1` is about
`23.627`; its nearest integer is `24`, and the resolved sample count is `23`. -/
theorem default_nt_is_not_nearest :
    FP.near (ntValue (setup rickerArgs).t0 (setup rickerArgs).dt) (23627 / 1000) (1 / 1000)
      = true ∧
    NINT (ntValue (setup rickerArgs).t0 (setup rickerArgs).dt) = 24 ∧
    (setup rickerArgs).nt = 23 ∧
    (setup rickerArgs).nt ≠ NINT (ntValue (setup rickerArgs).t0 (setup rickerArgs).dt) := by
  decide!

/-- C3 amended: when no `nt` is supplied the sample count is `2 * t0 / dt + 1` with its
fraction discarded (the C conversion to `int`), where `t0 = shift + sqrt(n) / fpeak` and
`dt = 0.5 / (nfpeak * fpeak)`; for `n=2 fpeak=35` it is `23`. -/
theorem default_nt_truncates :
    (∀ a : Args, a.nt = none →
      (setup a).nt = FP.toInt
        (FP.add binary64
          (FP.div binary64 (FP.mul binary64 (FP.ofInt binary64 2) (setup a).t0) (setup a).dt)
          (FP.ofInt binary64 1)) ∧
      (setup a).t0 = FP.add binary64 (setup a).shift
        (FP.div binary64 (FP.sqrt binary64 (FP.ofInt binary64 (setup a).n)) (setup a).fpeak) ∧
      (setup a).dt = FP.div binary64 (FP.lit 1 2)
        (FP.mul binary32 (FP.ofInt binary32 (setup a).nfpeak) (setup a).fpeak) ∧
      (∀ s q, ntValue (setup a).t0 (setup a).dt = FP.fin s q → (q : ℚ) < 2147483648 →
        (setup a).nt = if s then -⌊(q : ℚ)⌋ else ⌊(q : ℚ)⌋)) ∧
    (setup rickerArgs).nt = 23 := by
  refine ⟨?_, by decide!⟩
  intro a ha
  have hnt : (setup a).nt = FP.toInt (ntValue (setup a).t0 (setup a).dt) := by
    rw [setup_nt, ha]; rfl
  refine ⟨hnt, rfl, rfl, ?_⟩
  intro s q hv hq
  rw [hnt, hv]; exact toInt_fin s q hq

/-- C3 amended at `n=2 fpeak=35`. -/
theorem default_nt_truncates_witness :
    (setup rickerArgs).nt = FP.toInt
        (FP.add binary64
          (FP.div binary64 (FP.mul binary64 (FP.ofInt binary64 2) (setup rickerArgs).t0)
            (setup rickerArgs).dt)
          (FP.ofInt binary64 1)) ∧
      (setup rickerArgs).t0 = FP.add binary64 (setup rickerArgs).shift
        (FP.div binary64 (FP.sqrt binary64 (FP.ofInt binary64 (setup rickerArgs).n))
          (setup rickerArgs).fpeak) ∧
      (setup rickerArgs).dt = FP.div binary64 (FP.lit 1 2)
        (FP.mul binary32 (FP.ofInt binary32 (setup rickerArgs).nfpeak)
          (setup rickerArgs).fpeak) ∧
      (∀ s q, ntValue (setup rickerArgs).t0 (setup rickerArgs).dt = FP.fin s q →
        (q : ℚ) < 2147483648 →
        (setup rickerArgs).nt = if s then -⌊(q : ℚ)⌋ else ⌊(q : ℚ)⌋) :=
  default_nt_truncates.1 rickerArgs rfl

/-- C5, as the code has it: the request `nt=-1` has `n ≥ 1` and `dt ≥ 1e-6`, and no
record is put, whatever the library and the kernel are: the allocation of `w` fails. -/
theorem negative_nt_puts_no_record :
    (1 ≤ (setup negCountArgs).n ∧
      FP.le (FP.lit 1 1000000) (setup negCountArgs).dt = true ∧
      negCountArgs.nt = some (-1) ∧ (setup negCountArgs).nt = -1) ∧
    (∀ (E : Alloc) (K : Kernel),
      putsTrace (main_sudgwaveform E K false negCountArgs) = false) := by
  refine ⟨by decide!, fun E K => ?_⟩
  rw [main_of_alloc_failed E K negCountArgs (by decide!) (by decide!)]
  exact (failure_calls_no_trace _).1

/-- C5 amended: a request with `n ≥ 1` and `dt ≥ 1e-6` that supplies `nt = N` with
`N ≥ 0` puts a record with `ns = N` and exactly `N` samples, whatever the other
parameters are; every record that is put has `ns = nt` and exactly `nt` samples, `nt`
being the resolved count; with a negative `nt` no record is put. -/
theorem explicit_nt_is_record_length (E : Alloc) (K : Kernel) (a : Args) :
    (1 ≤ (setup a).n → FP.le (FP.lit 1 1000000) (setup a).dt = true →
      ∀ N : Int, a.nt = some N → 0 ≤ N →
        ∃ tr, main_sudgwaveform E K false a
            = [Call.setSUDoc, Call.putTrace tr, Call.setEOF] ∧
          tr.ns = N ∧ (tr.data.length : Int) = N) ∧
    (∀ tr, Call.putTrace tr ∈ main_sudgwaveform E K false a →
      tr.ns = (setup a).nt ∧ (tr.data.length : Int) = (setup a).nt) ∧
    ((setup a).nt < 0 → putsTrace (main_sudgwaveform E K false a) = false) := by
  refine ⟨?_, ?_, ?_⟩
  · intro hn hdt N hN h0
    have hlt := lt_false_of_le _ _ hdt
    have hnt : (setup a).nt = N := by rw [setup_nt, hN]; rfl
    refine ⟨_, main_of_accepted E K a hlt (by rw [hnt]; exact h0) hn, hnt, ?_⟩
    rw [makeTrace_length, hnt]; exact Int.toNat_of_nonneg h0
  · intro tr hmem
    cases hlt : FP.lt (setup a).dt (FP.lit 1 1000000)
    · by_cases hnt : (setup a).nt < 0
      · rw [main_of_alloc_failed E K a hlt hnt] at hmem
        rcases failure_calls_cases (E (setup a).nt) with ⟨hc, _⟩ | ⟨msg, hc, _⟩ <;>
          rw [hc] at hmem <;> simp at hmem
      · have h0 : 0 ≤ (setup a).nt := not_lt.mp hnt
        by_cases hn : 1 ≤ (setup a).n
        · rw [main_of_accepted E K a hlt h0 hn] at hmem
          simp only [List.mem_cons, List.mem_singleton, Call.putTrace.injEq, or_false,
            false_or, List.not_mem_nil] at hmem
          rcases hmem with hmem | hmem | hmem
          · exact absurd hmem (by simp)
          swap
          · exact absurd hmem (by simp)
          rw [hmem]
          refine ⟨rfl, ?_⟩
          rw [makeTrace_length]; exact Int.toNat_of_nonneg h0
        · rw [main_of_order_small E K a hlt h0 (not_le.mp hn)] at hmem
          simp at hmem
    · rw [main_of_dt_small E K a hlt] at hmem
      simp at hmem
  · intro hnt
    cases hlt : FP.lt (setup a).dt (FP.lit 1 1000000)
    · rw [main_of_alloc_failed E K a hlt hnt]
      exact (failure_calls_no_trace _).1
    · rw [main_of_dt_small E K a hlt]; rfl

/-- C5 amended at `nt = 128` with every other parameter at its default. -/
theorem explicit_nt_is_record_length_witness :
    ∃ tr, main_sudgwaveform fatalAlloc idleKernel false longArgs
        = [Call.setSUDoc, Call.putTrace tr, Call.setEOF] ∧
      tr.ns = 128 ∧ (tr.data.length : Int) = 128 :=
  (explicit_nt_is_record_length fatalAlloc idleKernel longArgs).1 (by decide) (by decide!)
    128 rfl (by decide)

/-- C6, as the code has it: the requests `nt=0` and `shift=-0.042`, every other parameter
at its default (`n = 2`, `fpeak = 35`), are accepted, and their sample count is zero. -/
theorem accepted_plan_without_samples :
    (setsError (main_sudgwaveform fatalAlloc idleKernel false { noArgs with nt := some 0 })
        = false ∧
      putsTrace (main_sudgwaveform fatalAlloc idleKernel false { noArgs with nt := some 0 })
        = true ∧
      1 ≤ (setup { noArgs with nt := some 0 }).n ∧
      FP.lt (FP.fin false 0) (setup { noArgs with nt := some 0 }).fpeak = true ∧
      (setup { noArgs with nt := some 0 }).nt = 0 ∧
      ¬ 1 ≤ (setup { noArgs with nt := some 0 }).nt) ∧
    (setsError (main_sudgwaveform fatalAlloc idleKernel false
        { noArgs with shift := some (FP.neg (FP.lit 42 1000)) }) = false ∧
      putsTrace (main_sudgwaveform fatalAlloc idleKernel false
        { noArgs with shift := some (FP.neg (FP.lit 42 1000)) }) = true ∧
      1 ≤ (setup { noArgs with shift := some (FP.neg (FP.lit 42 1000)) }).n ∧
      FP.lt (FP.fin false 0)
        (setup { noArgs with shift := some (FP.neg (FP.lit 42 1000)) }).fpeak = true ∧
      (setup { noArgs with shift := some (FP.neg (FP.lit 42 1000)) }).nt = 0 ∧
      ¬ 1 ≤ (setup { noArgs with shift := some (FP.neg (FP.lit 42 1000)) }).nt) := by
  decide!

/-- C6 amended: for a request with a finite `fpeak > 0` that is accepted, a trace being
put, the order `n` is at least one, the sample interval `dt` is positive and the sample
count is not negative. The sample count is at least one exactly when it is not zero:
with `nt = N` supplied, when `N ≥ 1`; without `nt`, when `2 * t0 / dt + 1` is at least
one, which it is whenever `t0 ≥ 0`. -/
theorem accepted_plan_bounds (E : Alloc) (K : Kernel) (a : Args) (q : NNRat)
    (hf : (setup a).fpeak = FP.fin false q) (hq : 0 < q)
    (hacc : putsTrace (main_sudgwaveform E K false a) = true) :
    1 ≤ (setup a).n ∧
    FP.lt (FP.fin false 0) (setup a).dt = true ∧
    0 ≤ (setup a).nt ∧
    (1 ≤ (setup a).nt ↔ (setup a).nt ≠ 0) ∧
    (∀ N : Int, a.nt = some N → (1 ≤ (setup a).nt ↔ 1 ≤ N)) ∧
    (a.nt = none →
      (1 ≤ (setup a).nt ↔
        FP.le (FP.ofInt binary64 1) (ntValue (setup a).t0 (setup a).dt) = true)) ∧
    (a.nt = none → FP.le (FP.fin false 0) (setup a).t0 = true → 1 ≤ (setup a).nt) := by
  obtain ⟨hlt, hnt, hn⟩ := accepted_of_trace E K a hacc
  have hval : a.nt = none →
      ∃ (s : Bool) (r : NNRat), ntValue (setup a).t0 (setup a).dt = FP.fin s r ∧
        (setup a).nt = if s then -⌊(r : ℚ)⌋ else ⌊(r : ℚ)⌋ := by
    intro hnone
    have hntv : (setup a).nt = FP.toInt (ntValue (setup a).t0 (setup a).dt) := by
      rw [setup_nt, hnone]; rfl
    obtain ⟨s, r, hv, hi⟩ := toInt_nonneg_cases _ (by rw [← hntv]; exact hnt)
    exact ⟨s, r, hv, by rw [hntv, hi]⟩
  refine ⟨hn, ?_, hnt, by omega, ?_, ?_, ?_⟩
  · apply pos_of_not_lt _ _ _ lit_micro_pos hlt
    rw [setup_dt]
    apply div_half_ne_nan
    rw [hf]
    apply mul_fin_ne_nan _ _ _ _ _ hq.ne'
    rcases ofInt_cases binary32 (setup a).nfpeak with h | h <;> rw [h] <;> simp
  · intro N hN
    rw [setup_nt, hN]; rfl
  · intro hnone
    obtain ⟨s, r, hv, hi⟩ := hval hnone
    have hr0 : (0:ℚ) ≤ (r : ℚ) := r.2
    rw [hv, hi, ofInt_one binary64 (Or.inr rfl)]
    cases s
    · simp only [Bool.false_eq_true, if_false, FP.le, FP.signed, decide_eq_true_eq,
        NNRat.coe_one]
      rw [Int.le_floor]; simp
    · simp only [if_true, FP.le, FP.signed, decide_eq_true_eq, Bool.false_eq_true, if_false,
        NNRat.coe_one]
      have hfl : (0:Int) ≤ ⌊(r : ℚ)⌋ := Int.floor_nonneg.mpr hr0
      constructor
      · intro h; omega
      · intro h; linarith
  · intro hnone ht
    obtain ⟨s, r, hv, hi⟩ := hval hnone
    obtain ⟨hs, hr⟩ := add_one_cases _ (value_nonNeg_of_t0 a ht hlt) s r hv
    subst hs
    rw [hi]
    simp only [Bool.false_eq_true, if_false]
    exact Int.le_floor.mpr (by exact_mod_cast hr)

/-- C6 amended at `shift=-0.01`, where `t0 ≥ 0` and the computed count is `18`, and at
`nt=128`. -/
theorem accepted_plan_bounds_witness :
    FP.lt (FP.fin false 0) (setup earlyArgs).dt = true ∧
    1 ≤ (setup earlyArgs).nt ∧
    (setup earlyArgs).nt = 18 ∧
    1 ≤ (setup longArgs).nt :=
  ⟨(accepted_plan_bounds fatalAlloc idleKernel earlyArgs 35 (by decide!) (by decide!)
      (by decide!)).2.1,
   (accepted_plan_bounds fatalAlloc idleKernel earlyArgs 35 (by decide!) (by decide!)
      (by decide!)).2.2.2.2.2.2 rfl (by decide!),
   by decide!,
   ((accepted_plan_bounds fatalAlloc idleKernel longArgs 35 (by decide!) (by decide!)
      (by decide!)).2.2.2.2.1 128 rfl).mpr (by decide)⟩

/-- C7, as the code has it: the request `nfpeak=0` is accepted with `dt = +inf`, so that
`dt * 1000000` is infinite and no integer is nearest to it; the request
`n=1 fpeak=0.00001` is accepted with `dt * 1000000` about `5e10`, beyond every C `int`.
In both records the sample interval field is `INT_MIN`. -/
theorem interval_field_without_nearest :
    (main_sudgwaveform fatalAlloc idleKernel false zeroFactorArgs
        = [Call.setSUDoc, Call.putTrace ⟨1, 1, 1, INT_MIN, 1, [FP.fin false 0]⟩,
           Call.setEOF] ∧
      (setup zeroFactorArgs).dt = FP.inf false ∧
      FP.mul binary64 (setup zeroFactorArgs).dt (FP.lit 1000000 1) = FP.inf false) ∧
    (main_sudgwaveform fatalAlloc idleKernel false slowArgs
        = [Call.setSUDoc,
           Call.putTrace ⟨1, 5, 1, INT_MIN, 1, List.replicate 5 (FP.fin false 0)⟩,
           Call.setEOF] ∧
      FP.near (FP.mul binary64 (setup slowArgs).dt (FP.lit 1000000 1)) 50000000000 2000
        = true) := by
  decide!

/-- C7 amended: the record of an accepted request has `tracl = 1`, `ns = nt`, `ntr = 1`
and `dt = NINT (dt * 1000000)`, which is within one half of `dt * 1000000` whenever that
product is finite and below `2^31 - 1/2`; it holds `nt` samples, and for each `i` below
`nt` the sample `data[i]` is the sample `w[i]` of the kernel converted to `float`: a
number of binary32, equal to `w[i]` when that is one, else within half a unit in the last
place of it, or infinite when `w[i]` is beyond the largest `float`. -/
theorem emitted_record_fields (E : Alloc) (K : Kernel) (a : Args)
    (hacc : putsTrace (main_sudgwaveform E K false a) = true) :
    ∃ tr, main_sudgwaveform E K false a = [Call.setSUDoc, Call.putTrace tr, Call.setEOF] ∧
      tr.tracl = 1 ∧ tr.ns = (setup a).nt ∧ tr.ntr = 1 ∧
      tr.dt = NINT (FP.mul binary64 (setup a).dt (FP.lit 1000000 1)) ∧
      (∀ s q, FP.mul binary64 (setup a).dt (FP.lit 1000000 1) = FP.fin s q →
        (q : ℚ) + 1 / 2 < 2147483648 → |((tr.dt : Int) : ℚ) - FP.signed s q| ≤ 1 / 2) ∧
      (tr.data.length : Int) = (setup a).nt ∧
      (∀ i : Nat, (i : Int) < (setup a).nt → ∃ y, tr.data[i]? = some y ∧
        FP.IsFloat binary32 y ∧
        (FP.IsFloat binary32
            (K (setup a).dt (setup a).nt (setup a).t0 (setup a).fpeak (setup a).n
              (fun _ => FP.fin false 0) (setup a).sign (setup a).verbose i) →
          y = K (setup a).dt (setup a).nt (setup a).t0 (setup a).fpeak (setup a).n
              (fun _ => FP.fin false 0) (setup a).sign (setup a).verbose i) ∧
        (∀ s q, K (setup a).dt (setup a).nt (setup a).t0 (setup a).fpeak (setup a).n
              (fun _ => FP.fin false 0) (setup a).sign (setup a).verbose i = FP.fin s q →
          (y = FP.inf s ∧ (2:ℚ) ^ 128 - (2:ℚ) ^ 104 < (q : ℚ)) ∨
          ∃ r : NNRat, y = FP.fin s r ∧
            |(r : ℚ) - (q : ℚ)| ≤ ulp binary32 (q : ℚ) / 2)) := by
  obtain ⟨hlt, hnt, hn⟩ := accepted_of_trace E K a hacc
  refine ⟨_, main_of_accepted E K a hlt hnt hn, rfl, rfl, rfl, rfl, ?_, ?_, ?_⟩
  · intro s q hq hr
    show |((NINT (FP.mul binary64 (setup a).dt (FP.lit 1000000 1)) : Int) : ℚ) - _| ≤ _
    rw [hq]; exact NINT_near s q hr
  · rw [makeTrace_length]; exact Int.toNat_of_nonneg hnt
  · intro i hi
    refine ⟨_, makeTrace_get _ _ i hi, toFloat_isFloat _, fun h => toFloat_of_isFloat _ h, ?_⟩
    intro s q hw
    rw [hw]; exact toFloat_fin s q

/-- C7 amended at `n=2 fpeak=35` with a kernel that writes `0.1` into every sample: the
record has `23` samples, each the `float` nearest to `0.1`, and the interval `3571`. -/
theorem emitted_record_fields_witness :
    (∃ tr, main_sudgwaveform fatalAlloc tenthKernel false rickerArgs
        = [Call.setSUDoc, Call.putTrace tr, Call.setEOF] ∧
      tr.tracl = 1 ∧ tr.ns = (setup rickerArgs).nt ∧ tr.ntr = 1 ∧
      tr.dt = NINT (FP.mul binary64 (setup rickerArgs).dt (FP.lit 1000000 1)) ∧
      (∀ s q, FP.mul binary64 (setup rickerArgs).dt (FP.lit 1000000 1) = FP.fin s q →
        (q : ℚ) + 1 / 2 < 2147483648 → |((tr.dt : Int) : ℚ) - FP.signed s q| ≤ 1 / 2) ∧
      (tr.data.length : Int) = (setup rickerArgs).nt ∧
      (∀ i : Nat, (i : Int) < (setup rickerArgs).nt → ∃ y, tr.data[i]? = some y ∧
        FP.IsFloat binary32 y ∧
        (FP.IsFloat binary32
            (tenthKernel (setup rickerArgs).dt (setup rickerArgs).nt (setup rickerArgs).t0
              (setup rickerArgs).fpeak (setup rickerArgs).n
              (fun _ => FP.fin false 0) (setup rickerArgs).sign (setup rickerArgs).verbose i) →
          y = tenthKernel (setup rickerArgs).dt (setup rickerArgs).nt (setup rickerArgs).t0
              (setup rickerArgs).fpeak (setup rickerArgs).n
              (fun _ => FP.fin false 0) (setup rickerArgs).sign (setup rickerArgs).verbose i) ∧
        (∀ s q, tenthKernel (setup rickerArgs).dt (setup rickerArgs).nt (setup rickerArgs).t0
              (setup rickerArgs).fpeak (setup rickerArgs).n
              (fun _ => FP.fin false 0) (setup rickerArgs).sign (setup rickerArgs).verbose i
            = FP.fin s q →
          (y = FP.inf s ∧ (2:ℚ) ^ 128 - (2:ℚ) ^ 104 < (q : ℚ)) ∨
          ∃ r : NNRat, y = FP.fin s r ∧
            |(r : ℚ) - (q : ℚ)| ≤ ulp binary32 (q : ℚ) / 2))) ∧
    main_sudgwaveform fatalAlloc tenthKernel false rickerArgs
      = [Call.setSUDoc,
         Call.putTrace ⟨1, 23, 1, 3571, 1,
           List.replicate 23 (FP.fin false (13421773 / 134217728))⟩,
         Call.setEOF] ∧
    FP.lit 1 10 = FP.fin false (3602879701896397 / 36028797018963968) :=
  ⟨emitted_record_fields fatalAlloc tenthKernel rickerArgs (by decide!), by decide!,
   by decide!⟩

/-- C8, as the code has it: for `n=46341` the product `n * n` leaves the range of a C
`int`; the default `nfpeak` is `-2147479015`, not `n` squared, and `fmax` is negative. -/
theorem default_nfpeak_overflows :
    (setup { noArgs with n := some 46341 }).n = 46341 ∧
    (setup { noArgs with n := some 46341 }).nfpeak = -2147479015 ∧
    (setup { noArgs with n := some 46341 }).nfpeak
      ≠ (setup { noArgs with n := some 46341 }).n * (setup { noArgs with n := some 46341 }).n ∧
    (setup { noArgs with n := some 46341 }).fmax
      ≠ FP.mul binary32 (FP.ofInt binary32 (46341 * 46341)) (FP.ofInt binary32 35) ∧
    FP.lt (setup { noArgs with n := some 46341 }).fmax (FP.fin false 0) = true := by
  decide!

/-- C8 amended: for `|n| ≤ 46340` an absent `nfpeak` is `n * n`, so that
`fmax = n * n * fpeak` and `dt = 0.5 / (n * n * fpeak)`; an absent `fpeak` is `35` and an
absent `shift` is `0`; for `n = 1` the maximum frequency is `fpeak`; for `n=2 fpeak=35`,
`nfpeak = 4`, `fmax = 140`, `dt` is within `1e-4` of `0.0035714` and `t0` within `1e-4` of
`0.04040`. -/
theorem defaults_resolved :
    (∀ a : Args, a.nfpeak = none → -46340 ≤ (setup a).n → (setup a).n ≤ 46340 →
      (setup a).nfpeak = (setup a).n * (setup a).n ∧
      (setup a).fmax
        = FP.mul binary32 (FP.ofInt binary32 ((setup a).n * (setup a).n)) (setup a).fpeak ∧
      (setup a).dt = FP.div binary64 (FP.lit 1 2)
        (FP.mul binary32 (FP.ofInt binary32 ((setup a).n * (setup a).n)) (setup a).fpeak)) ∧
    (∀ a : Args, a.fpeak = none → (setup a).fpeak = FP.fin false 35) ∧
    (∀ a : Args, a.shift = none → (setup a).shift = FP.fin false 0) ∧
    (∀ a : Args, a.nfpeak = none → (setup a).n = 1 → FP.IsFloat binary32 (setup a).fpeak →
      (setup a).fmax = (setup a).fpeak) ∧
    ((setup rickerArgs).nfpeak = 4 ∧ (setup rickerArgs).fmax = FP.fin false 140 ∧
      FP.near (setup rickerArgs).dt (35714 / 10000000) (1 / 10000) = true ∧
      FP.near (setup rickerArgs).t0 (4040 / 100000) (1 / 10000) = true) := by
  refine ⟨?_, ?_, ?_, ?_, by decide!⟩
  · intro a ha h1 h2
    have hnf := setup_nfpeak_default a ha h1 h2
    refine ⟨hnf, ?_, ?_⟩
    · rw [setup_fmax, hnf]
    · rw [setup_dt, hnf]
  · intro a ha
    show a.fpeak.getD (FP.ofInt binary32 35) = _
    rw [ha]; decide!
  · intro a ha
    show a.shift.getD (FP.ofInt binary64 0) = _
    rw [ha]; decide!
  · intro a ha hn hfl
    have hnf := setup_nfpeak_default a ha (by omega) (by omega)
    rw [setup_fmax, hnf, hn]
    exact mul_one_of_isFloat _ hfl

/-- C8 amended at `n=1` with `fpeak` at its default. -/
theorem defaults_resolved_witness :
    ((setup { noArgs with n := some 1 }).nfpeak
        = (setup { noArgs with n := some 1 }).n * (setup { noArgs with n := some 1 }).n ∧
      (setup { noArgs with n := some 1 }).fmax
        = FP.mul binary32 (FP.ofInt binary32
            ((setup { noArgs with n := some 1 }).n * (setup { noArgs with n := some 1 }).n))
          (setup { noArgs with n := some 1 }).fpeak ∧
      (setup { noArgs with n := some 1 }).dt = FP.div binary64 (FP.lit 1 2)
        (FP.mul binary32 (FP.ofInt binary32
            ((setup { noArgs with n := some 1 }).n * (setup { noArgs with n := some 1 }).n))
          (setup { noArgs with n := some 1 }).fpeak)) ∧
    (setup { noArgs with n := some 1 }).fmax = (setup { noArgs with n := some 1 }).fpeak :=
  ⟨defaults_resolved.1 { noArgs with n := some 1 } rfl (by decide) (by decide),
   defaults_resolved.2.2.2.1 { noArgs with n := some 1 } rfl rfl (by
     rw [show (setup { noArgs with n := some 1 }).fpeak = FP.fin false 35 by decide!]
     exact ⟨35, 0, by decide, by decide, by decide, by simp⟩)⟩

/-- C9: with the kernel of the spec, each sample being
`sign * (-1)^n * He_n(x) * exp(-x^2/2)` and `He` following the recurrence
`He_0 = 1`, `He_1 = x`, `He_k = x * He_{k-1} - (k-1) * He_{k-2}`, the record of an accepted
request with `sign = -1` is the record with `sign = +1` with every sample negated. -/
theorem sign_negates_waveform (E : Alloc) (sigma : FP → Int → FP) (fexp : FP → FP) (a : Args)
    (hacc : putsTrace (main_sudgwaveform E (deriv_n_gauss sigma fexp) false
      { a with sign := some 1 }) = true) :
    (∃ tr, main_sudgwaveform E (deriv_n_gauss sigma fexp) false { a with sign := some 1 }
        = [Call.setSUDoc, Call.putTrace tr, Call.setEOF] ∧
      main_sudgwaveform E (deriv_n_gauss sigma fexp) false { a with sign := some (-1) }
        = [Call.setSUDoc, Call.putTrace { tr with data := tr.data.map FP.neg },
           Call.setEOF]) ∧
    (∀ x : FP, hermite 0 x = FP.ofInt binary64 1 ∧ hermite 1 x = x ∧
      ∀ k : Nat, hermite (k + 2) x
        = FP.sub binary64 (FP.mul binary64 x (hermite (k + 1) x))
            (FP.mul binary64 (FP.ofInt binary64 ((k : Int) + 1)) (hermite k x))) := by
  refine ⟨?_, fun x => ⟨rfl, rfl, fun k => rfl⟩⟩
  obtain ⟨hlt, hnt, hn⟩ := accepted_of_trace _ _ _ hacc
  have hlt' : FP.lt (setup { a with sign := some (-1) }).dt (FP.lit 1 1000000) = false := hlt
  have hnt' : 0 ≤ (setup { a with sign := some (-1) }).nt := hnt
  have hn' : 1 ≤ (setup { a with sign := some (-1) }).n := hn
  refine ⟨_, main_of_accepted _ _ _ hlt hnt hn, ?_⟩
  rw [main_of_accepted _ _ _ hlt' hnt' hn']
  have key : makeTrace (setup { a with sign := some (-1) })
      (deriv_n_gauss sigma fexp (setup { a with sign := some (-1) }).dt
        (setup { a with sign := some (-1) }).nt (setup { a with sign := some (-1) }).t0
        (setup { a with sign := some (-1) }).fpeak (setup { a with sign := some (-1) }).n
        (fun _ => FP.fin false 0) (-1) (setup { a with sign := some (-1) }).verbose)
      = { makeTrace (setup { a with sign := some 1 })
            (deriv_n_gauss sigma fexp (setup { a with sign := some 1 }).dt
              (setup { a with sign := some 1 }).nt (setup { a with sign := some 1 }).t0
              (setup { a with sign := some 1 }).fpeak (setup { a with sign := some 1 }).n
              (fun _ => FP.fin false 0) 1 (setup { a with sign := some 1 }).verbose) with
          data := (makeTrace (setup { a with sign := some 1 })
            (deriv_n_gauss sigma fexp (setup { a with sign := some 1 }).dt
              (setup { a with sign := some 1 }).nt (setup { a with sign := some 1 }).t0
              (setup { a with sign := some 1 }).fpeak (setup { a with sign := some 1 }).n
              (fun _ => FP.fin false 0) 1
              (setup { a with sign := some 1 }).verbose)).data.map FP.neg } :=
    makeTrace_neg _ _ _ _ rfl rfl
      (fun i hi => deriv_n_gauss_neg sigma fexp _ _ _ _ _ _ _ i hi)
  exact congrArg (fun t => [Call.setSUDoc, Call.putTrace t, Call.setEOF]) key

/-- C9 at the default parameters, with the peak frequency standing for `sigma` and the
identity for the exponential. -/
theorem sign_negates_waveform_witness :
    (∃ tr, main_sudgwaveform fatalAlloc (deriv_n_gauss (fun fpeak _ => fpeak) (fun x => x))
          false { noArgs with sign := some 1 }
        = [Call.setSUDoc, Call.putTrace tr, Call.setEOF] ∧
      main_sudgwaveform fatalAlloc (deriv_n_gauss (fun fpeak _ => fpeak) (fun x => x)) false
          { noArgs with sign := some (-1) }
        = [Call.setSUDoc, Call.putTrace { tr with data := tr.data.map FP.neg },
           Call.setEOF]) ∧
    (∀ x : FP, hermite 0 x = FP.ofInt binary64 1 ∧ hermite 1 x = x ∧
      ∀ k : Nat, hermite (k + 2) x
        = FP.sub binary64 (FP.mul binary64 x (hermite (k + 1) x))
            (FP.mul binary64 (FP.ofInt binary64 ((k : Int) + 1)) (hermite k x))) :=
  sign_negates_waveform fatalAlloc (fun fpeak _ => fpeak) (fun x => x) noArgs (by decide!)

end sudgwaveform
